import Mathlib

/-!
Verification development for a discrete-time multicore architectural simulator
(set-associative LRU cache, per-core pipelines, shared-memory latency, metrics).

The definitions below are a shallow embedding of the Rust sources:
`cache.rs`, `core.rs`, `memory.rs`, `metrics.rs`, `scheduler.rs`, `simulator.rs`,
`workload.rs`.  Machine integers (`u64`, `u32`, `usize`) are modelled as `Nat`;
all counters in the program only ever increase by small amounts per step, and no
arithmetic in the modelled paths can reach `2 ^ 64`, except where explicitly
noted.  Fallible construction (Rust panics / asserts) is modelled with `Option`.
All definitions use structural recursion so that concrete runs evaluate inside
the kernel (`decide` / `rfl`).
-/

set_option autoImplicit false

namespace MLAccel

/-! ### Machine-integer bit helpers

`trailing_zeros` and `count_ones` from Rust's integer intrinsics, written with
an explicit fuel argument (the fuel `n` is always sufficient for input `n`,
since the argument halves at every stage).  `trailing_zeros(0) = 64` matches
`u64`/`usize` on a 64-bit platform. -/

def tzGo : Nat → Nat → Nat
  | _, 0 => 64
  | 0, _ + 1 => 0
  | fuel + 1, n + 1 => if (n + 1) % 2 = 0 then tzGo fuel ((n + 1) / 2) + 1 else 0

/-- Model of `usize::trailing_zeros` / `u64::trailing_zeros`. -/
def trailingZeros (n : Nat) : Nat := tzGo n n

def coGo : Nat → Nat → Nat
  | _, 0 => 0
  | 0, _ + 1 => 0
  | fuel + 1, n + 1 => (n + 1) % 2 + coGo fuel ((n + 1) / 2)

/-- Model of `u64::count_ones`. -/
def countOnes (n : Nat) : Nat := coGo n n

/-! ### Cache model (`cache.rs`) -/

/-- Result of a cache access. -/
inductive CacheAccessResult where
  | Hit
  | Miss
deriving DecidableEq, Repr

/-- Configuration for an L1 cache. -/
structure CacheConfig where
  size_bytes : Nat
  line_size : Nat
  associativity : Nat
  hit_latency_cycles : Nat
deriving DecidableEq, Repr

/-- `CacheConfig::num_sets`: `(size_bytes / line_size) / associativity`.
In Rust a zero `line_size` or `associativity` panics with a division by zero;
in the model `Nat` division by zero yields `0`, which makes `Cache.new` fail,
matching the fact that no cache is produced. -/
def CacheConfig.num_sets (c : CacheConfig) : Nat :=
  c.size_bytes / c.line_size / c.associativity

/-- One cache line (tag plus valid bit). -/
structure CacheLine where
  tag : Nat
  valid : Bool
deriving DecidableEq, Repr

/-- One set: ways plus the recency order (front = most recently used,
back = least recently used). -/
structure CacheSet where
  lines : List CacheLine
  lru_order : List Nat
deriving DecidableEq, Repr

/-- `CacheSet::new`. -/
def CacheSet.new (associativity : Nat) : CacheSet :=
  { lines := List.replicate associativity { tag := 0, valid := false },
    lru_order := List.range associativity }

/-- `CacheSet::touch`: find the first occurrence of `way` in the recency order,
remove it, and push `way` at the front; no-op when `way` is absent. -/
def CacheSet.touch (s : CacheSet) (way : Nat) : CacheSet :=
  if way ∈ s.lru_order then { s with lru_order := way :: s.lru_order.erase way } else s

/-- `CacheSet::access`: scan the ways in index order for a valid line with the
given tag; on the first match touch that way and report `Hit`, otherwise `Miss`. -/
def CacheSet.access (s : CacheSet) (tag : Nat) : CacheAccessResult × CacheSet :=
  match s.lines.findIdx? (fun l => l.valid && l.tag == tag) with
  | some i => (CacheAccessResult.Hit, s.touch i)
  | none => (CacheAccessResult.Miss, s)

/-- `CacheSet::allocate`: overwrite the way at the back of the recency order
(the least-recently-used position), mark it valid, and touch it.
(When the victim index were out of range Rust would panic; under the recency
permutation invariant it is always in range.) -/
def CacheSet.allocate (s : CacheSet) (tag : Nat) : CacheSet :=
  match s.lru_order.getLast? with
  | some victim_way =>
      CacheSet.touch
        { s with lines := s.lines.set victim_way { tag := tag, valid := true } }
        victim_way
  | none => s

/-- Private L1 cache for one core. -/
structure Cache where
  config : CacheConfig
  sets : List CacheSet
  set_mask : Nat
  line_bits : Nat
deriving DecidableEq, Repr

/-- `Cache::new`.  The Rust code asserts `num_sets > 0` (a panic aborts
construction); this is modelled by returning `none`.  No other condition is
checked: in particular a non-power-of-two set count is accepted. -/
def Cache.new (config : CacheConfig) : Option Cache :=
  let num_sets := config.num_sets
  if num_sets = 0 then none
  else
    let set_bits := trailingZeros num_sets
    some { config := config,
           sets := (List.range num_sets).map (fun _ => CacheSet.new config.associativity),
           set_mask := 2 ^ set_bits - 1,
           line_bits := trailingZeros config.line_size }

/-- `Cache::address_to_set_and_tag`: returns `(set_index, tag)`. -/
def Cache.address_to_set_and_tag (c : Cache) (address : Nat) : Nat × Nat :=
  let line_addr := address >>> c.line_bits
  (line_addr &&& c.set_mask, line_addr >>> countOnes c.set_mask)

/-- `Cache::access`: look up the target set; on a miss also allocate.
The `none` branch (set index out of range, a panic in Rust) is unreachable for
constructed caches since the set index is at most `set_mask < num_sets`. -/
def Cache.access (c : Cache) (address : Nat) : CacheAccessResult × Cache :=
  let st := c.address_to_set_and_tag address
  match c.sets[st.1]? with
  | some s =>
      let rs := s.access st.2
      let s2 := if rs.1 = CacheAccessResult.Miss then rs.2.allocate st.2 else rs.2
      (rs.1, { c with sets := c.sets.set st.1 s2 })
  | none => (CacheAccessResult.Miss, c)

/-- `Cache::hit_latency_cycles`. -/
def Cache.hit_latency_cycles (c : Cache) : Nat := c.config.hit_latency_cycles

/-- Fold a list of addresses through `Cache.access` (an access trace). -/
def runAccesses (c : Cache) (addrs : List Nat) : Cache :=
  addrs.foldl (fun c a => (c.access a).2) c

/-! ### Metrics (`metrics.rs`)

The per-core map (`HashMap<CoreId, PerCoreMetrics>` with `or_default`) is
modelled as a total function from core index to `PerCoreMetrics`: an absent key
and a key mapped to the all-zero default are indistinguishable through every
read the program performs. -/

structure PerCoreMetrics where
  memory_accesses : Nat
  cache_hits : Nat
  cache_misses : Nat
  memory_stall_cycles : Nat
deriving DecidableEq, Repr

def PerCoreMetrics.zero : PerCoreMetrics := ⟨0, 0, 0, 0⟩

structure Metrics where
  total_cycles : Nat
  total_memory_accesses : Nat
  cache_hits : Nat
  cache_misses : Nat
  memory_stall_cycles : Nat
  per_core : Nat → PerCoreMetrics

/-- `Metrics::new` (all counters zero, empty per-core map). -/
def Metrics.new : Metrics :=
  { total_cycles := 0, total_memory_accesses := 0, cache_hits := 0,
    cache_misses := 0, memory_stall_cycles := 0, per_core := fun _ => PerCoreMetrics.zero }

/-- `Metrics::record_access`. -/
def Metrics.record_access (m : Metrics) (core_id : Nat) (hit : Bool) (stall_cycles : Nat) :
    Metrics :=
  let per := m.per_core core_id
  { m with
    total_memory_accesses := m.total_memory_accesses + 1
    cache_hits := if hit then m.cache_hits + 1 else m.cache_hits
    cache_misses := if hit then m.cache_misses else m.cache_misses + 1
    memory_stall_cycles := m.memory_stall_cycles + stall_cycles
    per_core := Function.update m.per_core core_id
      { memory_accesses := per.memory_accesses + 1
        cache_hits := if hit then per.cache_hits + 1 else per.cache_hits
        cache_misses := if hit then per.cache_misses else per.cache_misses + 1
        memory_stall_cycles := per.memory_stall_cycles + stall_cycles } }

/-- The two `memory_stall_cycles += 1` counter bumps performed per stalled
instruction in the memory substage of `Simulator::step`. -/
def Metrics.bump_stall (m : Metrics) (core_id : Nat) : Metrics :=
  let per := m.per_core core_id
  { m with
    memory_stall_cycles := m.memory_stall_cycles + 1
    per_core := Function.update m.per_core core_id
      { per with memory_stall_cycles := per.memory_stall_cycles + 1 } }

/-! ### Instructions and cores (`core.rs`) -/

inductive PipelineStage where
  | Fetch
  | Execute
  | Memory
  | Commit
deriving DecidableEq, Repr

inductive InstructionKind where
  | Compute
  | Load
  | Store
deriving DecidableEq, Repr

structure Instruction where
  kind : InstructionKind
  address : Nat
  issue_cycle : Nat
  stage_cycles_left : Nat
  stage : PipelineStage
  stalled : Bool
  stall_cycles_left : Nat
deriving DecidableEq, Repr

/-- `Instruction::new_compute`. -/
def Instruction.new_compute (issue_cycle : Nat) : Instruction :=
  { kind := InstructionKind.Compute, address := 0, issue_cycle := issue_cycle,
    stage_cycles_left := 1, stage := PipelineStage.Fetch, stalled := false,
    stall_cycles_left := 0 }

/-- `Instruction::new_memory`. -/
def Instruction.new_memory (kind : InstructionKind) (address issue_cycle : Nat) : Instruction :=
  { kind := kind, address := address, issue_cycle := issue_cycle,
    stage_cycles_left := 1, stage := PipelineStage.Fetch, stalled := false,
    stall_cycles_left := 0 }

/-- `Instruction::is_memory_op`. -/
def Instruction.is_memory_op (i : Instruction) : Bool :=
  match i.kind with
  | InstructionKind.Load => true
  | InstructionKind.Store => true
  | InstructionKind.Compute => false

/-! ### Memory and scheduler (`memory.rs`, `scheduler.rs`) -/

structure MemoryConfig where
  access_latency_cycles : Nat
deriving DecidableEq, Repr

structure Memory where
  config : MemoryConfig
deriving DecidableEq, Repr

def Memory.access_latency_cycles (m : Memory) : Nat := m.config.access_latency_cycles

structure Scheduler where
  num_cores : Nat
  num_threads : Nat
deriving DecidableEq, Repr

/-- `Scheduler::thread_to_core`: `thread_id % num_cores`.  In Rust this panics
when `num_cores = 0`; `Nat` gives `thread_id % 0 = thread_id`, which then makes
the workload push a no-op — either way no core receives work. -/
def Scheduler.thread_to_core (s : Scheduler) (thread_id : Nat) : Nat :=
  thread_id % s.num_cores

/-! ### Simulator (`simulator.rs`)

`VecDeque` pipelines and workload queues are lists with the front at the head
(`pop_front` = head, `push_back` = append). -/

/-- Per-core state: L1 cache, in-flight pipeline, pending workload. -/
structure CoreState where
  cache : Cache
  pipeline : List Instruction
  workload : List Instruction
  pipeline_width : Nat
deriving DecidableEq, Repr

structure StageCycles where
  fetch_cycles : Nat
  execute_cycles : Nat
  commit_cycles : Nat
deriving DecidableEq, Repr

def StageCycles.default : StageCycles := ⟨1, 1, 1⟩

structure Simulator where
  num_cores : Nat
  num_threads : Nat
  cores : List CoreState
  memory : Memory
  scheduler : Scheduler
  metrics : Metrics
  current_cycle : Nat
  stage_cycles : StageCycles

/-- Commit substage, per instruction: instructions in the Commit stage with no
remaining cycles are removed; others in Commit decrement. -/
def commit_instr (i : Instruction) : Option Instruction :=
  if i.stage ≠ PipelineStage.Commit then some i
  else if i.stage_cycles_left > 0 then
    some { i with stage_cycles_left := i.stage_cycles_left - 1 }
  else none

/-- Commit substage over all cores. -/
def step_commit (cores : List CoreState) : List CoreState :=
  cores.map fun c => { c with pipeline := c.pipeline.filterMap commit_instr }

/-- Memory substage, per instruction: returns the updated instruction and
whether a memory-stall cycle was counted. -/
def memory_instr (hit_lat commit_c : Nat) (i : Instruction) : Instruction × Bool :=
  if i.stage ≠ PipelineStage.Memory then (i, false)
  else if i.stalled then
    let r :=
      if i.stall_cycles_left > 0 then
        ({ i with stall_cycles_left := i.stall_cycles_left - 1 }, true)
      else (i, false)
    if r.1.stall_cycles_left = 0 then
      ({ r.1 with stalled := false, stage_cycles_left := hit_lat }, r.2)
    else r
  else if i.stage_cycles_left > 0 then
    ({ i with stage_cycles_left := i.stage_cycles_left - 1 }, false)
  else
    ({ i with stage := PipelineStage.Commit, stage_cycles_left := commit_c }, false)

/-- Memory substage over one core's pipeline, threading the metrics. -/
def memory_phase (hit_lat commit_c core_id : Nat) :
    List Instruction → Metrics → List Instruction × Metrics
  | [], m => ([], m)
  | i :: rest, m =>
      let r := memory_instr hit_lat commit_c i
      let m1 := if r.2 then m.bump_stall core_id else m
      let rr := memory_phase hit_lat commit_c core_id rest m1
      (r.1 :: rr.1, rr.2)

/-- Memory substage over all cores (core index = position). -/
def step_memory (commit_c : Nat) : Nat → List CoreState → Metrics → List CoreState × Metrics
  | _, [], m => ([], m)
  | idx, c :: cs, m =>
      let r := memory_phase c.cache.hit_latency_cycles commit_c idx c.pipeline m
      let rr := step_memory commit_c (idx + 1) cs r.2
      ({ c with pipeline := r.1 } :: rr.1, rr.2)

/-- Execute substage, per instruction: compute instructions with no remaining
cycles go straight to Commit; memory operations perform exactly one cache
access, are recorded (the returned event), and move to the Memory stage, either
with the hit latency or stalled for the miss latency. -/
def execute_instr (mem_lat commit_c : Nat) (cache : Cache) (i : Instruction) :
    Instruction × Cache × Option (Bool × Nat) :=
  if i.stage ≠ PipelineStage.Execute then (i, cache, none)
  else if i.stage_cycles_left > 0 then
    ({ i with stage_cycles_left := i.stage_cycles_left - 1 }, cache, none)
  else if i.is_memory_op then
    let rc := cache.access i.address
    let hit := rc.1 = CacheAccessResult.Hit
    let stall := if hit then 0 else mem_lat
    let i' :=
      if hit then
        { i with stage := PipelineStage.Memory, stage_cycles_left := rc.2.hit_latency_cycles }
      else
        { i with stage := PipelineStage.Memory, stalled := true, stall_cycles_left := mem_lat }
    (i', rc.2, some (hit, stall))
  else
    ({ i with stage := PipelineStage.Commit, stage_cycles_left := commit_c }, cache, none)

/-- Execute substage over one core's pipeline, threading cache and metrics. -/
def execute_phase (mem_lat commit_c core_id : Nat) :
    Cache → List Instruction → Metrics → List Instruction × Cache × Metrics
  | cache, [], m => ([], cache, m)
  | cache, i :: rest, m =>
      let r := execute_instr mem_lat commit_c cache i
      let m1 :=
        match r.2.2 with
        | some ev => m.record_access core_id ev.1 ev.2
        | none => m
      let rr := execute_phase mem_lat commit_c core_id r.2.1 rest m1
      (r.1 :: rr.1, rr.2.1, rr.2.2)

/-- Execute substage over all cores. -/
def step_execute (mem_lat commit_c : Nat) :
    Nat → List CoreState → Metrics → List CoreState × Metrics
  | _, [], m => ([], m)
  | idx, c :: cs, m =>
      let r := execute_phase mem_lat commit_c idx c.cache c.pipeline m
      let rr := step_execute mem_lat commit_c (idx + 1) cs r.2.2
      ({ c with pipeline := r.1, cache := r.2.1 } :: rr.1, rr.2)

/-- Fetch substage, per instruction. -/
def fetch_instr (exec_c : Nat) (i : Instruction) : Instruction :=
  if i.stage ≠ PipelineStage.Fetch then i
  else if i.stage_cycles_left > 0 then
    { i with stage_cycles_left := i.stage_cycles_left - 1 }
  else
    { i with stage := PipelineStage.Execute, stage_cycles_left := exec_c }

/-- Fetch substage over all cores. -/
def step_fetch (exec_c : Nat) (cores : List CoreState) : List CoreState :=
  cores.map fun c => { c with pipeline := c.pipeline.map (fetch_instr exec_c) }

/-- Admission substage for one core: while the pipeline has fewer entries than
the configured width, pop the next pending instruction and push it at the back
of the pipeline in the Fetch stage with the fetch duration. -/
def admission_loop (width fetch_c : Nat) :
    List Instruction → List Instruction → List Instruction × List Instruction
  | pipe, [] => (pipe, [])
  | pipe, i :: rest =>
      if pipe.length < width then
        admission_loop width fetch_c
          (pipe ++ [{ i with stage := PipelineStage.Fetch, stage_cycles_left := fetch_c }]) rest
      else (pipe, i :: rest)

/-- Admission substage over all cores. -/
def step_admission (fetch_c : Nat) (cores : List CoreState) : List CoreState :=
  cores.map fun c =>
    let r := admission_loop c.pipeline_width fetch_c c.pipeline c.workload
    { c with pipeline := r.1, workload := r.2 }

/-- `Simulator::step`: one cycle — commit, memory, execute, fetch, admission
substages over all cores, then publish the clock. -/
def Simulator.step (s : Simulator) : Simulator :=
  let cyc := s.current_cycle + 1
  let c1 := step_commit s.cores
  let r2 := step_memory s.stage_cycles.commit_cycles 0 c1 s.metrics
  let r3 := step_execute s.memory.access_latency_cycles s.stage_cycles.commit_cycles 0 r2.1 r2.2
  let c4 := step_fetch s.stage_cycles.execute_cycles r3.1
  let c5 := step_admission s.stage_cycles.fetch_cycles c4
  { s with cores := c5,
           metrics := { r3.2 with total_cycles := cyc },
           current_cycle := cyc }

/-- A core still holds work (used by `run_to_completion`'s loop condition). -/
def CoreState.busy (c : CoreState) : Bool :=
  !c.workload.isEmpty || !c.pipeline.isEmpty

def Simulator.busy (s : Simulator) : Bool :=
  s.cores.any CoreState.busy

/-- `Simulator::run_to_completion`, with explicit fuel: `none` means the fuel
ran out while some core still held work (in particular, an infinite loop in the
Rust original is modelled by `run_to_completion fuel s = none` for every fuel). -/
def Simulator.run_to_completion : Nat → Simulator → Option Simulator
  | 0, s => if s.busy then none else some s
  | fuel + 1, s => if s.busy then Simulator.run_to_completion fuel s.step else some s

/-- Build the per-core states for `Simulator::new`; `none` when any cache
construction fails. -/
def mk_cores : Nat → CacheConfig → Nat → Option (List CoreState)
  | 0, _, _ => some []
  | n + 1, cc, pw =>
      match Cache.new cc, mk_cores n cc pw with
      | some cache, some rest =>
          some ({ cache := cache, pipeline := [], workload := [], pipeline_width := pw } :: rest)
      | _, _ => none

/-- `Simulator::new`.  The only way construction can fail is the
`num_sets > 0` assert inside `Cache::new`, and it runs once per core — with
zero cores nothing is checked at all. -/
def Simulator.new (num_cores num_threads : Nat) (cache_config : CacheConfig)
    (memory_config : MemoryConfig) (pipeline_width : Nat) : Option Simulator :=
  match mk_cores num_cores cache_config pipeline_width with
  | some cores =>
      some { num_cores := num_cores, num_threads := num_threads, cores := cores,
             memory := { config := memory_config },
             scheduler := { num_cores := num_cores, num_threads := num_threads },
             metrics := Metrics.new, current_cycle := 0,
             stage_cycles := StageCycles.default }
  | none => none

/-- Append one thread's instruction stream to its home core's pending queue.
(The out-of-range branch is unreachable in Rust: the core id is
`thread_id % num_cores < num_cores`; with `num_cores = 0` Rust panics before
indexing, and in the model the push becomes a no-op.) -/
def push_workload (cores : List CoreState) (core_id : Nat) (instrs : List Instruction) :
    List CoreState :=
  match cores[core_id]? with
  | some c => cores.set core_id { c with workload := c.workload ++ instrs }
  | none => cores

def load_go (sch : Scheduler) (cores : List CoreState) (thread_id : Nat) :
    List (List Instruction) → List CoreState
  | [] => cores
  | instrs :: rest =>
      load_go sch (push_workload cores (sch.thread_to_core thread_id) instrs) (thread_id + 1) rest

/-- `Simulator::load_workload`: route stream `t` to core `t % num_cores`. -/
def Simulator.load_workload (s : Simulator) (thread_workloads : List (List Instruction)) :
    Simulator :=
  { s with cores := load_go s.scheduler s.cores 0 thread_workloads }

/-! ### Lemmas about the bit helpers -/

/-- A cache geometry with `num_sets = 96 / 32 / 1 = 3`: positive but not a
power of two. -/
def cfgBad : CacheConfig := ⟨96, 32, 1, 1⟩

def junkCache : Cache := ⟨⟨0, 0, 0, 0⟩, [], 0, 0⟩

def cfgW : CacheConfig := ⟨256, 32, 2, 1⟩

def cacheW : Cache := (Cache.new cfgW).getD junkCache

/-- A constructible geometry with a non-power-of-two line size (384 B total,
96 B lines, 2-way: 2 sets, which is a power of two). -/
def cfgNp : CacheConfig := ⟨384, 96, 2, 1⟩

def cacheNp : Cache := (Cache.new cfgNp).getD junkCache

/-- The constructible 3-set cache built from the non-power-of-two set count
geometry `cfgBad`. -/
def cacheB3 : Cache := (Cache.new cfgBad).getD junkCache

/-- A concrete post-hit state for the C5 witness: a full 2-way set holding tags
5 and 7, where way 1 was touched more recently than way 0 (an intervening hit
on tag 7), so way 0 — not the first-filled way — is the next victim. -/
def setW : CacheSet := ⟨[⟨5, true⟩, ⟨7, true⟩], [1, 0]⟩

/-- The C7 invariant on a metrics value. -/
def metrics_inv (m : Metrics) : Prop :=
  m.total_memory_accesses = m.cache_hits + m.cache_misses

def junkSim : Simulator :=
  ⟨0, 0, [], ⟨⟨0⟩⟩, ⟨0, 0⟩, Metrics.new, 0, StageCycles.default⟩

/-- The tiny concrete engine used by several witnesses: one core, a 2-set
direct-mapped cache, miss latency 2, pipeline width 2. -/
def cfg3 : CacheConfig := ⟨64, 32, 1, 1⟩

def simW : Simulator := (Simulator.new 1 1 cfg3 ⟨2⟩ 2).getD junkSim

def workW : List (List Instruction) :=
  [[Instruction.new_memory InstructionKind.Load 0 0, Instruction.new_compute 1]]

/-- The C10 invariant: each of the four shared counters equals the sum of the
corresponding per-core counters over the `n` cores. -/
def percore_sum_inv (m : Metrics) (n : Nat) : Prop :=
  m.total_memory_accesses = ∑ i ∈ Finset.range n, (m.per_core i).memory_accesses ∧
  m.cache_hits = ∑ i ∈ Finset.range n, (m.per_core i).cache_hits ∧
  m.cache_misses = ∑ i ∈ Finset.range n, (m.per_core i).cache_misses ∧
  m.memory_stall_cycles = ∑ i ∈ Finset.range n, (m.per_core i).memory_stall_cycles

/-- The per-core record written by `Metrics::record_access`. -/
def recordDelta (p : PerCoreMetrics) (hit : Bool) (st : Nat) : PerCoreMetrics :=
  { memory_accesses := p.memory_accesses + 1
    cache_hits := if hit then p.cache_hits + 1 else p.cache_hits
    cache_misses := if hit then p.cache_misses else p.cache_misses + 1
    memory_stall_cycles := p.memory_stall_cycles + st }

/-- The per-core record written by the stall bump in the memory substage. -/
def bumpDelta (p : PerCoreMetrics) : PerCoreMetrics :=
  { p with memory_stall_cycles := p.memory_stall_cycles + 1 }

/-- The execute substage of one core without the metrics sink (which it does
not read). -/
def execute_phase_pure (ml cc : Nat) : Cache → List Instruction → List Instruction × Cache
  | cache, [] => ([], cache)
  | cache, i :: rest =>
      let r := execute_instr ml cc cache i
      let rr := execute_phase_pure ml cc r.2.1 rest
      (r.1 :: rr.1, rr.2)

/-- One `Simulator::step` restricted to a single core's state. -/
def core_step (sc : StageCycles) (ml : Nat) (c : CoreState) : CoreState :=
  let p1 := c.pipeline.filterMap commit_instr
  let p2 := p1.map (fun i => (memory_instr c.cache.hit_latency_cycles sc.commit_cycles i).1)
  let r3 := execute_phase_pure ml sc.commit_cycles c.cache p2
  let p4 := r3.1.map (fetch_instr sc.execute_cycles)
  let r5 := admission_loop c.pipeline_width sc.fetch_cycles p4 c.workload
  { cache := r3.2, pipeline := r5.1, workload := r5.2, pipeline_width := c.pipeline_width }

def stage_rank : PipelineStage → Nat
  | PipelineStage.Commit => 0
  | PipelineStage.Memory => 1
  | PipelineStage.Execute => 2
  | PipelineStage.Fetch => 3

def bitv (b : Bool) : Nat := if b then 1 else 0

/-- Per-instruction measure, strictly decreasing each cycle for an in-flight
instruction (given the bounds `Sb` on stall counters and `Cb` on stage
counters). -/
def imeasure (Sb Cb : Nat) (i : Instruction) : Nat :=
  ((stage_rank i.stage * 2 + bitv i.stalled) * (Sb + 1) + i.stall_cycles_left) * (Cb + 1)
    + i.stage_cycles_left

/-- The instruction's counters are within the bounds. -/
def ibnd (Sb Cb : Nat) (i : Instruction) : Prop :=
  i.stall_cycles_left ≤ Sb ∧ i.stage_cycles_left ≤ Cb

def pmeasure (Sb Cb : Nat) (pipe : List Instruction) : Nat :=
  (pipe.map (fun i => imeasure Sb Cb i + 1)).sum

/-- Weight of one pending (not yet admitted) instruction: strictly more than
any admitted instruction's measure plus one. -/
def wweight (Sb Cb : Nat) : Nat := (7 * (Sb + 1) + Sb) * (Cb + 1) + Cb + 2

def cmeasure (Sb Cb : Nat) (c : CoreState) : Nat :=
  pmeasure Sb Cb c.pipeline + c.workload.length * wweight Sb Cb

/-- Per-core bounds invariant used by the termination argument. -/
def core_bnd (Sb Cb : Nat) (c : CoreState) : Prop :=
  (∀ i ∈ c.pipeline, ibnd Sb Cb i) ∧ (∀ i ∈ c.workload, i.stall_cycles_left ≤ Sb)

/-- The configuration values that feed stage/stall counters are within the
bounds. -/
def cfg_bnd (sc : StageCycles) (ml Sb Cb : Nat) (c : CoreState) : Prop :=
  sc.commit_cycles ≤ Cb ∧ sc.execute_cycles ≤ Cb ∧ sc.fetch_cycles ≤ Cb ∧
  ml ≤ Sb ∧ c.cache.config.hit_latency_cycles ≤ Cb

/-- Bound on all stall counters appearing in a core's state. -/
def stall_bound (c : CoreState) : Nat :=
  ((c.pipeline ++ c.workload).map (fun i => i.stall_cycles_left)).foldr max 0

/-- Bound on all stage counters appearing in a core's pipeline. -/
def scl_bound (c : CoreState) : Nat :=
  (c.pipeline.map (fun i => i.stage_cycles_left)).foldr max 0

def simW0 : Simulator := (Simulator.new 1 1 cfg3 ⟨2⟩ 0).getD junkSim

def lg2Go : Nat → Nat → Nat
  | _, 0 => 0
  | 0, _ + 1 => 0
  | f + 1, n + 1 => if n + 1 ≥ 2 then lg2Go f ((n + 1) / 2) + 1 else 0

/-- Floor of the base-2 logarithm (fuel-based, kernel-computable). -/
def lg2 (n : Nat) : Nat := lg2Go n n

/-- The binade exponent of a positive rational: the unique `e` with
`2 ^ e ≤ q < 2 ^ (e + 1)`. -/
def rexp (q : ℚ) : ℤ :=
  if q < 2 ^ ((lg2 q.num.toNat : ℤ) - (lg2 q.den : ℤ)) then
    (lg2 q.num.toNat : ℤ) - (lg2 q.den : ℤ) - 1
  else
    (lg2 q.num.toNat : ℤ) - (lg2 q.den : ℤ)

/-- Round a rational to an integer, half to even. -/
def rhe (x : ℚ) : ℤ :=
  if x - ⌊x⌋ < 1 / 2 then ⌊x⌋
  else if 1 / 2 < x - ⌊x⌋ then ⌊x⌋ + 1
  else if Even ⌊x⌋ then ⌊x⌋ else ⌊x⌋ + 1

/-- Round a rational to the nearest IEEE-754 binary64 value (round to nearest,
ties to even; exponent range unbounded — exact on the magnitudes reachable in
this program).  Nonpositive inputs (only 0 occurs here) map to 0. -/
def fl (q : ℚ) : ℚ :=
  if 0 < q then
    (rhe (q * 2 ^ ((52 : ℤ) - rexp q)) : ℚ) * 2 ^ (rexp q - 52)
  else 0

/-- `Metrics::hit_rate`: `cache_hits as f64 / total as f64`, 1.0 when there
were no accesses.  Every step — the two `u64 → f64` conversions and the
division — rounds to nearest. -/
def Metrics.hit_rate (m : Metrics) : ℚ :=
  if m.cache_hits + m.cache_misses = 0 then 1
  else fl (fl (m.cache_hits : ℚ) / fl ((m.cache_hits + m.cache_misses : Nat) : ℚ))

/-- `Metrics::miss_rate`. -/
def Metrics.miss_rate (m : Metrics) : ℚ :=
  if m.cache_hits + m.cache_misses = 0 then 0
  else fl (fl (m.cache_misses : ℚ) / fl ((m.cache_hits + m.cache_misses : Nat) : ℚ))

/-- `Metrics::slowdown_vs_ideal`: 0 when `ideal = 0` or `actual ≤ ideal`, else
`(actual - ideal) as f64 / ideal as f64` (the `u64` subtraction is exact since
`actual > ideal`). -/
def Metrics.slowdown_vs_ideal (m : Metrics) (ideal_cycles : Nat) : ℚ :=
  if ideal_cycles = 0 then 0
  else if m.total_cycles ≤ ideal_cycles then 0
  else fl (fl ((m.total_cycles - ideal_cycles : Nat) : ℚ) / fl (ideal_cycles : ℚ))

/-- `Metrics::slowdown_percent`: `slowdown_vs_ideal * 100.0` (the literal
`100.0` is exactly representable). -/
def Metrics.slowdown_percent (m : Metrics) (ideal_cycles : Nat) : ℚ :=
  fl (m.slowdown_vs_ideal ideal_cycles * 100)

/-- A metrics state with two hits and one miss (mirrors the Rust unit test). -/
def mTest : Metrics := { Metrics.new with cache_hits := 2, cache_misses := 1 }

/-- A metrics state whose access total `2 ^ 53 + 3` exceeds the largest
integer exactly representable in binary64. -/
def mBig : Metrics := { Metrics.new with cache_hits := 1, cache_misses := 9007199254740994 }

/-- A metrics state that has accumulated 117 total cycles. -/
def m117 : Metrics := { Metrics.new with total_cycles := 117 }

theorem tzGo_succ (fuel n : Nat) (hn : n ≠ 0) :
    tzGo (fuel + 1) n = if n % 2 = 0 then tzGo fuel (n / 2) + 1 else 0 := by
  cases n with
  | zero => exact absurd rfl hn
  | succ m => rfl

theorem tzGo_two_pow : ∀ (k fuel : Nat), 2 ^ k ≤ fuel + 1 → tzGo (fuel + 1) (2 ^ k) = k := by
  intro k
  induction k with
  | zero => intro fuel _; rfl
  | succ k ih =>
      intro fuel hf
      have hpow : (0:Nat) < 2 ^ k := Nat.pos_pow_of_pos k (by omega)
      have hfuel : 1 ≤ fuel := by
        have : 2 ^ (k + 1) = 2 * 2 ^ k := by ring
        omega
      obtain ⟨f, rfl⟩ : ∃ f, fuel = f + 1 := ⟨fuel - 1, by omega⟩
      rw [tzGo_succ]
      · have hmod : 2 ^ (k + 1) % 2 = 0 := by
          have : 2 ^ (k + 1) = 2 ^ k * 2 := by ring
          simp [this, Nat.mul_mod_left]
        have hdiv : 2 ^ (k + 1) / 2 = 2 ^ k := by
          have : 2 ^ (k + 1) = 2 ^ k * 2 := by ring
          simp [this]
        rw [if_pos hmod, hdiv, ih]
        have h2 : 2 * 2 ^ k ≤ f + 3 := by
          have : 2 ^ (k + 1) = 2 * 2 ^ k := by ring
          omega
        omega
      · positivity

theorem trailingZeros_two_pow (k : Nat) : trailingZeros (2 ^ k) = k := by
  have hpow : (0:Nat) < 2 ^ k := Nat.pos_pow_of_pos k (by omega)
  obtain ⟨f, hf⟩ : ∃ f, 2 ^ k = f + 1 := ⟨2 ^ k - 1, by omega⟩
  unfold trailingZeros
  nth_rewrite 1 [hf]
  exact tzGo_two_pow k f (by omega)

theorem coGo_succ (fuel n : Nat) (hn : n ≠ 0) :
    coGo (fuel + 1) n = n % 2 + coGo fuel (n / 2) := by
  cases n with
  | zero => exact absurd rfl hn
  | succ m => rfl

theorem coGo_two_pow_sub_one : ∀ (k fuel : Nat), 2 ^ k - 1 ≤ fuel → coGo fuel (2 ^ k - 1) = k := by
  intro k
  induction k with
  | zero => intro fuel _; cases fuel <;> rfl
  | succ k ih =>
      intro fuel hf
      have hpow : (0:Nat) < 2 ^ k := Nat.pos_pow_of_pos k (by omega)
      have hsucc : 2 ^ (k + 1) = 2 * 2 ^ k := by ring
      have hne : 2 ^ (k + 1) - 1 ≠ 0 := by omega
      obtain ⟨f, rfl⟩ : ∃ f, fuel = f + 1 := ⟨fuel - 1, by omega⟩
      rw [coGo_succ _ _ hne]
      have hodd : (2 ^ (k + 1) - 1) % 2 = 1 := by omega
      have hhalf : (2 ^ (k + 1) - 1) / 2 = 2 ^ k - 1 := by omega
      rw [hodd, hhalf, ih]
      · omega
      · omega

theorem countOnes_two_pow_sub_one (k : Nat) : countOnes (2 ^ k - 1) = k := by
  unfold countOnes
  exact coGo_two_pow_sub_one k _ (Nat.le_refl _)

/-! ### Claim C1: construction-time validation

The spec claims engine construction fails for a non-power-of-two set count and
for zero cores.  In the code the only construction-time check is the assert
`num_sets > 0` inside `Cache::new`, executed once per core: a positive
non-power-of-two set count passes it, and with zero cores it never runs, so
both "invalid" configurations yield an engine value. -/

theorem cache_new_eq_none_iff (cc : CacheConfig) :
    Cache.new cc = none ↔ cc.num_sets = 0 := by
  unfold Cache.new
  by_cases h : cc.num_sets = 0 <;> simp [h]

theorem mk_cores_eq_none_iff (cc : CacheConfig) (pw : Nat) :
    ∀ n, mk_cores n cc pw = none ↔ 0 < n ∧ cc.num_sets = 0 := by
  intro n
  induction n with
  | zero => simp [mk_cores]
  | succ n ih =>
      by_cases h : cc.num_sets = 0
      · have hc : Cache.new cc = none := (cache_new_eq_none_iff cc).mpr h
        simp [mk_cores, hc, h]
      · have hc : ∃ c, Cache.new cc = some c := by
          cases hcn : Cache.new cc with
          | none => exact absurd ((cache_new_eq_none_iff cc).mp hcn) h
          | some c => exact ⟨c, rfl⟩
        obtain ⟨c, hc⟩ := hc
        have hrest : ∃ r, mk_cores n cc pw = some r := by
          cases hr : mk_cores n cc pw with
          | none => exact absurd ((ih.mp hr).2) h
          | some r => exact ⟨r, rfl⟩
        obtain ⟨r, hr⟩ := hrest
        simp [mk_cores, hc, hr, h]

/-- C1 (amended): engine construction fails exactly when there is at least one
core and the configured set count is zero; a positive non-power-of-two set
count, or zero cores, does not prevent construction. -/
theorem simulator_new_eq_none_iff (nc nt pw : Nat) (cc : CacheConfig) (mc : MemoryConfig) :
    Simulator.new nc nt cc mc pw = none ↔ 0 < nc ∧ cc.num_sets = 0 := by
  unfold Simulator.new
  cases h : mk_cores nc cc pw with
  | none => simpa [h] using (mk_cores_eq_none_iff cc pw nc).mp h
  | some cores =>
      have : ¬ (0 < nc ∧ cc.num_sets = 0) := by
        intro hcontra
        have := (mk_cores_eq_none_iff cc pw nc).mpr hcontra
        rw [h] at this
        exact Option.noConfusion this
      simp [h, this]

/-- C1 (counterexample to the claim as stated): a cache geometry whose set
count is 3 — positive but not a power of two — and a zero-core configuration
both produce an engine value at construction time. -/
theorem simulator_new_accepts_invalid_configs :
    (Simulator.new 1 1 cfgBad ⟨100⟩ 4).isSome = true ∧
    cfgBad.num_sets = 3 ∧ (∀ k, cfgBad.num_sets ≠ 2 ^ k) ∧
    (Simulator.new 0 0 ⟨4096, 64, 2, 1⟩ ⟨100⟩ 4).isSome = true := by
  refine ⟨by decide, by decide, ?_, by decide⟩
  intro k
  match k with
  | 0 => decide
  | 1 => decide
  | k + 2 =>
      have h4 : 4 ≤ 2 ^ (k + 2) := by
        calc (4:Nat) = 2 ^ 2 := by norm_num
        _ ≤ 2 ^ (k + 2) := Nat.pow_le_pow_right (by norm_num) (by omega)
      have : cfgBad.num_sets = 3 := by decide
      omega

/-- C1 witness: the amended construction-failure criterion at concrete inputs —
`96/32/1` (three sets) constructs, while a one-set-of-zero geometry fails. -/
theorem simulator_new_eq_none_iff_witness :
    ¬ Simulator.new 2 2 (CacheConfig.mk 96 32 1 1) ⟨100⟩ 4 = none ∧
    Simulator.new 2 2 (CacheConfig.mk 0 32 1 1) ⟨100⟩ 4 = none := by
  constructor
  · intro h
    have := (simulator_new_eq_none_iff 2 2 4 (CacheConfig.mk 96 32 1 1) ⟨100⟩).mp h
    revert this
    decide
  · exact (simulator_new_eq_none_iff 2 2 4 (CacheConfig.mk 0 32 1 1) ⟨100⟩).mpr (by decide)

/-! ### Claim C4: address decomposition -/

/-- C4 (amended): for a constructed cache whose line size and set count are
both powers of two, `address_to_set_and_tag` computes line index = address /
line size, set index = line index mod number of sets, and tag = line index /
number of sets (the remaining high bits).  Outside this geometry the shift and
mask fall short of division and modulus (see the counterexample). -/
theorem cache_address_decomposition (cfg : CacheConfig) (c : Cache) (addr k j : Nat)
    (hc : Cache.new cfg = some c) (hline : cfg.line_size = 2 ^ k) (hsets : cfg.num_sets = 2 ^ j) :
    c.address_to_set_and_tag addr =
      ((addr / cfg.line_size) % cfg.num_sets, addr / cfg.line_size / cfg.num_sets) := by
  have hpos : cfg.num_sets ≠ 0 := by
    rw [hsets]; positivity
  unfold Cache.new at hc
  rw [if_neg hpos] at hc
  have hcfields := Option.some.inj hc
  subst hcfields
  unfold Cache.address_to_set_and_tag
  simp only [hline, hsets, trailingZeros_two_pow]
  rw [countOnes_two_pow_sub_one]
  rw [Nat.shiftRight_eq_div_pow, Nat.and_pow_two_sub_one_eq_mod, Nat.shiftRight_eq_div_pow]

/-- C4 witness: the decomposition at a concrete cache (256 B, 32 B lines,
2-way: 4 sets) and address 1234. -/
theorem cache_address_decomposition_witness :
    Cache.new cfgW = some cacheW ∧ cfgW.line_size = 2 ^ 5 ∧ cfgW.num_sets = 2 ^ 2 ∧
    cacheW.address_to_set_and_tag 1234 = ((1234 / 32) % 4, 1234 / 32 / 4) :=
  ⟨by decide, by decide, by decide, by
    have h := cache_address_decomposition cfgW cacheW 1234 5 2 (by decide) (by decide) (by decide)
    simpa using h⟩

/-- C4 counterexample: the code's shift/mask decomposition does not equal the
claimed div/mod decomposition on every constructible cache.  With 384 B
capacity, 96 B lines and 2-way associativity the set count is 2 — a power of
two, so the cache passes every construction-time check — yet address 96 is
decomposed by shifting out only `trailing_zeros(96) = 5` line bits, giving
line index 3 and hence (set 1, tag 1), where the claimed line index
`96 / 96 = 1` gives (set 1, tag 0).  The constructible 3-set cache built from
`cfgBad` masks the set index with `2 ^ trailing_zeros(3) - 1 = 0` and maps
address 32 to (set 0, tag 1) instead of the claimed
`((32 / 32) % 3, (32 / 32) / 3) = (1, 0)`. -/
theorem cache_address_decomposition_counterexample :
    (Cache.new cfgNp = some cacheNp ∧ cfgNp.num_sets = 2 ∧
      cacheNp.address_to_set_and_tag 96 = (1, 1) ∧
      ((96 / cfgNp.line_size) % cfgNp.num_sets, 96 / cfgNp.line_size / cfgNp.num_sets)
        = (1, 0)) ∧
    (Cache.new cfgBad = some cacheB3 ∧ cfgBad.num_sets = 3 ∧
      cacheB3.address_to_set_and_tag 32 = (0, 1) ∧
      ((32 / cfgBad.line_size) % cfgBad.num_sets, 32 / cfgBad.line_size / cfgBad.num_sets)
        = (1, 0)) := by
  decide

/-! ### Claim C5: LRU hit/miss behaviour within a set -/

theorem nodup_erase_getLast_eq_dropLast :
    ∀ (l : List Nat) (v : Nat), l.Nodup → l.getLast? = some v → l.erase v = l.dropLast := by
  intro l
  induction l with
  | nil => intro v _ hv; exact Option.noConfusion hv
  | cons x t ih =>
      intro v hnd hv
      cases t with
      | nil =>
          have : x = v := by simpa using hv
          subst this
          simp
      | cons y t2 =>
          have hvt : (y :: t2).getLast? = some v := by
            simpa [List.getLast?_cons_cons] using hv
          have hvmem : v ∈ y :: t2 := List.mem_of_getLast?_eq_some hvt
          have hxne : x ≠ v := by
            intro hx
            subst hx
            exact (List.nodup_cons.mp hnd).1 hvmem
          have hbeq : ¬ (x == v) := by simpa using hxne
          rw [List.erase_cons_tail hbeq, ih v (List.nodup_cons.mp hnd).2 hvt,
            List.dropLast_cons₂]

/-- C5 (confirmed): on a fully valid set, an access whose tag matches way `i`
(first match in way order) reports Hit, leaves the lines unchanged, and moves
`i` to the most-recently-used (front) position; an access whose tag matches no
valid way reports Miss and the subsequent allocation overwrites exactly the
way at the least-recently-used (back) position of the recency order with the
new tag, marks it valid, and moves it to the front.  Together with the
invariant of C6 (the order is a permutation, so the back way is the
least-recently-touched one even after intervening hits), this is the claimed
LRU behaviour. -/
theorem lru_set_access_behavior (s : CacheSet) (t : Nat)
    (hperm : s.lru_order.Perm (List.range s.lines.length))
    (_hfull : ∀ l ∈ s.lines, l.valid = true) :
    (∀ i, s.lines.findIdx? (fun l => l.valid && l.tag == t) = some i →
        s.access t = (CacheAccessResult.Hit, { s with lru_order := i :: s.lru_order.erase i })) ∧
    (s.lines.findIdx? (fun l => l.valid && l.tag == t) = none →
      ∀ v, s.lru_order.getLast? = some v →
        (s.access t).1 = CacheAccessResult.Miss ∧
        ((s.access t).2.allocate t).lines = s.lines.set v { tag := t, valid := true } ∧
        ((s.access t).2.allocate t).lru_order = v :: s.lru_order.dropLast) := by
  constructor
  · intro i hfind
    have hlt : i < s.lines.length :=
      (List.findIdx?_eq_some_iff_findIdx_eq.mp hfind).1
    have hmem : i ∈ s.lru_order := by
      have : i ∈ List.range s.lines.length := List.mem_range.mpr hlt
      exact hperm.mem_iff.mpr this
    simp only [CacheSet.access, hfind, CacheSet.touch, if_pos hmem]
  · intro hnone v hv
    have hvmem : v ∈ s.lru_order := List.mem_of_getLast?_eq_some hv
    have hnd : s.lru_order.Nodup := hperm.nodup_iff.mpr (List.nodup_range _)
    have haccess : s.access t = (CacheAccessResult.Miss, s) := by
      simp only [CacheSet.access, hnone]
    have halloc : s.allocate t =
        { lines := s.lines.set v { tag := t, valid := true },
          lru_order := v :: s.lru_order.erase v } := by
      simp only [CacheSet.allocate, hv, CacheSet.touch]
      rw [if_pos hvmem]
    rw [haccess]
    refine ⟨rfl, ?_, ?_⟩
    · rw [halloc]
    · rw [halloc]
      simp only []
      rw [nodup_erase_getLast_eq_dropLast s.lru_order v hnd hv]

/-- C5 witness: instantiating the theorem on `setW` with the absent tag 9 —
the victim is way 0 (the least recently touched), which gets tag 9, becomes
valid and most-recently-used — and with the present tag 7 (a hit moving way 1
to the front, where it already is). -/
theorem lru_set_access_behavior_witness :
    (setW.access 9).1 = CacheAccessResult.Miss ∧
    ((setW.access 9).2.allocate 9).lines = [⟨9, true⟩, ⟨7, true⟩] ∧
    ((setW.access 9).2.allocate 9).lru_order = [0, 1] ∧
    setW.access 7 = (CacheAccessResult.Hit, ⟨[⟨5, true⟩, ⟨7, true⟩], [1, 0]⟩) := by
  have h9 := lru_set_access_behavior setW 9 (by decide) (by decide)
  have h7 := lru_set_access_behavior setW 7 (by decide) (by decide)
  have hm := h9.2 (by decide) 0 (by decide)
  have hh := h7.1 1 (by decide)
  exact ⟨hm.1, by rw [hm.2.1]; decide, by rw [hm.2.2]; decide, by rw [hh]; decide⟩

/-! ### Claim C6: the recency order stays a permutation of the way indices -/

theorem cacheSet_touch_lru_perm (s : CacheSet) (w : Nat) :
    (s.touch w).lru_order.Perm s.lru_order := by
  unfold CacheSet.touch
  by_cases h : w ∈ s.lru_order
  · rw [if_pos h]
    exact (List.perm_cons_erase h).symm
  · rw [if_neg h]

theorem cacheSet_touch_lines (s : CacheSet) (w : Nat) : (s.touch w).lines = s.lines := by
  unfold CacheSet.touch
  split <;> rfl

theorem cacheSet_allocate_lru_perm (s : CacheSet) (t : Nat) :
    (s.allocate t).lru_order.Perm s.lru_order := by
  unfold CacheSet.allocate
  cases hv : s.lru_order.getLast? with
  | none => exact List.Perm.refl _
  | some v => exact cacheSet_touch_lru_perm _ v

theorem cacheSet_access_lru_perm (s : CacheSet) (t : Nat) :
    ((s.access t).2).lru_order.Perm s.lru_order := by
  unfold CacheSet.access
  cases hf : s.lines.findIdx? (fun l => l.valid && l.tag == t) with
  | none => exact List.Perm.refl _
  | some i => exact cacheSet_touch_lru_perm s i

theorem cache_access_of_getElem_some (c : Cache) (a : Nat) (s0 : CacheSet)
    (h : c.sets[(c.address_to_set_and_tag a).1]? = some s0) :
    c.access a = ((s0.access (c.address_to_set_and_tag a).2).1,
      Cache.mk c.config
        (c.sets.set (c.address_to_set_and_tag a).1
          (if (s0.access (c.address_to_set_and_tag a).2).1 = CacheAccessResult.Miss
           then (s0.access (c.address_to_set_and_tag a).2).2.allocate
             (c.address_to_set_and_tag a).2
           else (s0.access (c.address_to_set_and_tag a).2).2))
        c.set_mask c.line_bits) := by
  unfold Cache.access
  simp only [h]

theorem cache_access_of_getElem_none (c : Cache) (a : Nat)
    (h : c.sets[(c.address_to_set_and_tag a).1]? = none) :
    c.access a = (CacheAccessResult.Miss, c) := by
  unfold Cache.access
  simp only [h]

theorem cache_access_perm_inv (c : Cache) (a : Nat) (r : List Nat)
    (hinv : ∀ s ∈ c.sets, s.lru_order.Perm r) :
    ∀ s ∈ (c.access a).2.sets, s.lru_order.Perm r := by
  cases hget : c.sets[(c.address_to_set_and_tag a).1]? with
  | none => rw [cache_access_of_getElem_none c a hget]; exact hinv
  | some s0 =>
      rw [cache_access_of_getElem_some c a s0 hget]
      have hs0 : s0 ∈ c.sets := by
        obtain ⟨h, he⟩ := List.getElem?_eq_some_iff.mp hget
        exact he ▸ List.getElem_mem h
      intro s hs
      simp only [] at hs
      rcases List.mem_or_eq_of_mem_set hs with h | h
      · exact hinv s h
      · subst h
        have hperm0 : s0.lru_order.Perm r := hinv s0 hs0
        by_cases hmiss : (s0.access (c.address_to_set_and_tag a).2).1 = CacheAccessResult.Miss
        · rw [if_pos hmiss]
          exact ((cacheSet_allocate_lru_perm _ _).trans
            (cacheSet_access_lru_perm s0 _)).trans hperm0
        · rw [if_neg hmiss]
          exact (cacheSet_access_lru_perm s0 _).trans hperm0

theorem runAccesses_perm_inv (addrs : List Nat) (r : List Nat) :
    ∀ (c : Cache), (∀ s ∈ c.sets, s.lru_order.Perm r) →
      ∀ s ∈ (runAccesses c addrs).sets, s.lru_order.Perm r := by
  induction addrs with
  | nil => intro c hinv; exact hinv
  | cons a rest ih =>
      intro c hinv
      exact ih ((c.access a).2) (cache_access_perm_inv c a r hinv)

/-- C6 (confirmed): after any access trace from a freshly constructed cache,
every set's recency order is a permutation of that set's way indices. -/
theorem lru_order_perm_invariant (cfg : CacheConfig) (c0 : Cache) (addrs : List Nat)
    (h : Cache.new cfg = some c0) :
    ∀ s ∈ (runAccesses c0 addrs).sets,
      s.lru_order.Perm (List.range cfg.associativity) := by
  have hinit : ∀ s ∈ c0.sets, s.lru_order.Perm (List.range cfg.associativity) := by
    unfold Cache.new at h
    by_cases hz : cfg.num_sets = 0
    · rw [if_pos hz] at h
      exact Option.noConfusion h
    · rw [if_neg hz] at h
      have := Option.some.inj h
      subst this
      intro s hs
      simp only [List.mem_map] at hs
      obtain ⟨_, _, rfl⟩ := hs
      exact List.Perm.refl _
  exact runAccesses_perm_inv addrs _ c0 hinit

/-- C6 witness: a concrete 2-set, 2-way cache and a five-access trace. -/
theorem lru_order_perm_invariant_witness :
    Cache.new (CacheConfig.mk 128 32 2 1) = some ((Cache.new (CacheConfig.mk 128 32 2 1)).getD junkCache) ∧
    ∀ s ∈ (runAccesses ((Cache.new (CacheConfig.mk 128 32 2 1)).getD junkCache)
        [0, 64, 128, 0, 192]).sets,
      s.lru_order.Perm (List.range (CacheConfig.mk 128 32 2 1).associativity) :=
  ⟨by decide,
    lru_order_perm_invariant (CacheConfig.mk 128 32 2 1) _ [0, 64, 128, 0, 192] (by decide)⟩

/-! ### Claim C7: total memory accesses = hits + misses -/

theorem record_access_metrics_inv (m : Metrics) (cid : Nat) (hit : Bool) (st : Nat)
    (h : metrics_inv m) : metrics_inv (m.record_access cid hit st) := by
  unfold metrics_inv Metrics.record_access at *
  cases hit <;> simp <;> omega

theorem bump_stall_metrics_inv (m : Metrics) (cid : Nat)
    (h : metrics_inv m) : metrics_inv (m.bump_stall cid) := h

theorem memory_phase_metrics_inv (hl cc cid : Nat) :
    ∀ (pipe : List Instruction) (m : Metrics), metrics_inv m →
      metrics_inv (memory_phase hl cc cid pipe m).2 := by
  intro pipe
  induction pipe with
  | nil => intro m h; exact h
  | cons i rest ih =>
      intro m h
      unfold memory_phase
      apply ih
      by_cases hb : (memory_instr hl cc i).2
      · simpa [hb] using bump_stall_metrics_inv m cid h
      · simpa [hb] using h

theorem step_memory_metrics_inv (cc : Nat) :
    ∀ (cs : List CoreState) (idx : Nat) (m : Metrics), metrics_inv m →
      metrics_inv (step_memory cc idx cs m).2 := by
  intro cs
  induction cs with
  | nil => intro idx m h; exact h
  | cons c rest ih =>
      intro idx m h
      unfold step_memory
      exact ih _ _ (memory_phase_metrics_inv _ _ _ _ _ h)

theorem execute_phase_metrics_inv (ml cc cid : Nat) :
    ∀ (pipe : List Instruction) (cache : Cache) (m : Metrics), metrics_inv m →
      metrics_inv (execute_phase ml cc cid cache pipe m).2.2 := by
  intro pipe
  induction pipe with
  | nil => intro cache m h; exact h
  | cons i rest ih =>
      intro cache m h
      unfold execute_phase
      apply ih
      cases hev : (execute_instr ml cc cache i).2.2 with
      | none => simpa [hev] using h
      | some ev => simpa [hev] using record_access_metrics_inv m cid ev.1 ev.2 h

theorem step_execute_metrics_inv (ml cc : Nat) :
    ∀ (cs : List CoreState) (idx : Nat) (m : Metrics), metrics_inv m →
      metrics_inv (step_execute ml cc idx cs m).2 := by
  intro cs
  induction cs with
  | nil => intro idx m h; exact h
  | cons c rest ih =>
      intro idx m h
      unfold step_execute
      exact ih _ _ (execute_phase_metrics_inv _ _ _ _ _ _ h)

theorem step_metrics_inv (s : Simulator) (h : metrics_inv s.metrics) :
    metrics_inv s.step.metrics := by
  unfold Simulator.step
  exact step_execute_metrics_inv _ _ _ _ _ (step_memory_metrics_inv _ _ _ _ h)

theorem iterate_step_metrics_inv (n : Nat) (s : Simulator) (h : metrics_inv s.metrics) :
    metrics_inv (Simulator.step^[n] s).metrics := by
  induction n generalizing s with
  | zero => exact h
  | succ n ih =>
      rw [Function.iterate_succ_apply]
      exact ih _ (step_metrics_inv s h)

theorem simulator_new_metrics (nc nt pw : Nat) (cc : CacheConfig) (mc : MemoryConfig)
    (sim : Simulator) (h : Simulator.new nc nt cc mc pw = some sim) :
    sim.metrics = Metrics.new := by
  unfold Simulator.new at h
  cases hmk : mk_cores nc cc pw with
  | none => rw [hmk] at h; exact Option.noConfusion h
  | some cores =>
      rw [hmk] at h
      have := Option.some.inj h
      subst this
      rfl

/-- C7 (confirmed): after any number of steps on an engine constructed via
`Simulator::new` and loaded with any workload, the metrics satisfy
total memory accesses = cache hits + cache misses. -/
theorem total_accesses_eq_hits_add_misses (nc nt pw n : Nat) (cc : CacheConfig)
    (mc : MemoryConfig) (tw : List (List Instruction)) (sim : Simulator)
    (h : Simulator.new nc nt cc mc pw = some sim) :
    (Simulator.step^[n] (sim.load_workload tw)).metrics.total_memory_accesses =
      (Simulator.step^[n] (sim.load_workload tw)).metrics.cache_hits +
      (Simulator.step^[n] (sim.load_workload tw)).metrics.cache_misses := by
  have hload : (sim.load_workload tw).metrics = Metrics.new := by
    unfold Simulator.load_workload
    simpa using simulator_new_metrics nc nt pw cc mc sim h
  have h0 : metrics_inv (sim.load_workload tw).metrics := by
    rw [hload]; rfl
  exact iterate_step_metrics_inv n _ h0

/-- C7 witness: the invariant after 9 steps of a concrete run (one miss). -/
theorem total_accesses_eq_hits_add_misses_witness :
    Simulator.new 1 1 cfg3 ⟨2⟩ 2 = some simW ∧
    (Simulator.step^[9] (simW.load_workload workW)).metrics.total_memory_accesses =
      (Simulator.step^[9] (simW.load_workload workW)).metrics.cache_hits +
      (Simulator.step^[9] (simW.load_workload workW)).metrics.cache_misses :=
  ⟨rfl, total_accesses_eq_hits_add_misses 1 1 2 9 cfg3 ⟨2⟩ workW simW rfl⟩

/-! ### Claim C10: shared counters equal the per-core sums -/

theorem sum_update_field (n cid : Nat) (hcid : cid < n) (f : Nat → PerCoreMetrics)
    (v : PerCoreMetrics) (g : PerCoreMetrics → Nat) (d : Nat) (hv : g v = g (f cid) + d) :
    ∑ i ∈ Finset.range n, g (Function.update f cid v i) =
      (∑ i ∈ Finset.range n, g (f i)) + d := by
  have hmem : cid ∈ Finset.range n := Finset.mem_range.mpr hcid
  have hproj : (fun i => g (Function.update f cid v i)) =
      Function.update (fun i => g (f i)) cid (g v) := by
    funext i
    by_cases h : i = cid
    · subst h; simp
    · simp [Function.update_noteq h]
  have h1 : (∑ i ∈ Finset.range n, g (Function.update f cid v i)) =
      g v + ∑ i ∈ Finset.range n \ {cid}, g (f i) := by
    calc (∑ i ∈ Finset.range n, g (Function.update f cid v i))
        = ∑ i ∈ Finset.range n, Function.update (fun i => g (f i)) cid (g v) i := by
          rw [← hproj]
      _ = g v + ∑ i ∈ Finset.range n \ {cid}, g (f i) :=
          Finset.sum_update_of_mem hmem (fun i => g (f i)) (g v)
  have h2 : (∑ i ∈ Finset.range n, g (f i)) =
      (∑ i ∈ Finset.range n \ {cid}, g (f i)) + g (f cid) :=
    Finset.sum_eq_sum_diff_singleton_add hmem _
  omega

theorem record_access_per_core (m : Metrics) (cid : Nat) (hit : Bool) (st : Nat) :
    (m.record_access cid hit st).per_core =
      Function.update m.per_core cid (recordDelta (m.per_core cid) hit st) := rfl

theorem bump_stall_per_core (m : Metrics) (cid : Nat) :
    (m.bump_stall cid).per_core =
      Function.update m.per_core cid (bumpDelta (m.per_core cid)) := rfl

theorem record_access_sum_inv (m : Metrics) (cid : Nat) (hit : Bool) (st n : Nat)
    (hcid : cid < n) (h : percore_sum_inv m n) :
    percore_sum_inv (m.record_access cid hit st) n := by
  obtain ⟨h1, h2, h3, h4⟩ := h
  refine ⟨?_, ?_, ?_, ?_⟩
  · show m.total_memory_accesses + 1 = _
    simp only [record_access_per_core]
    rw [sum_update_field n cid hcid m.per_core (recordDelta (m.per_core cid) hit st)
      (fun p => p.memory_accesses) 1 rfl]
    omega
  · show (if hit then m.cache_hits + 1 else m.cache_hits) = _
    simp only [record_access_per_core]
    rw [sum_update_field n cid hcid m.per_core (recordDelta (m.per_core cid) hit st)
      (fun p => p.cache_hits) (if hit then 1 else 0) (by cases hit <;> simp [recordDelta])]
    cases hit <;> simp <;> omega
  · show (if hit then m.cache_misses else m.cache_misses + 1) = _
    simp only [record_access_per_core]
    rw [sum_update_field n cid hcid m.per_core (recordDelta (m.per_core cid) hit st)
      (fun p => p.cache_misses) (if hit then 0 else 1) (by cases hit <;> simp [recordDelta])]
    cases hit <;> simp <;> omega
  · show m.memory_stall_cycles + st = _
    simp only [record_access_per_core]
    rw [sum_update_field n cid hcid m.per_core (recordDelta (m.per_core cid) hit st)
      (fun p => p.memory_stall_cycles) st rfl]
    omega

theorem bump_stall_sum_inv (m : Metrics) (cid n : Nat)
    (hcid : cid < n) (h : percore_sum_inv m n) :
    percore_sum_inv (m.bump_stall cid) n := by
  obtain ⟨h1, h2, h3, h4⟩ := h
  refine ⟨?_, ?_, ?_, ?_⟩
  · show m.total_memory_accesses = _
    simp only [bump_stall_per_core]
    rw [sum_update_field n cid hcid m.per_core (bumpDelta (m.per_core cid))
      (fun p => p.memory_accesses) 0 rfl]
    omega
  · show m.cache_hits = _
    simp only [bump_stall_per_core]
    rw [sum_update_field n cid hcid m.per_core (bumpDelta (m.per_core cid))
      (fun p => p.cache_hits) 0 rfl]
    omega
  · show m.cache_misses = _
    simp only [bump_stall_per_core]
    rw [sum_update_field n cid hcid m.per_core (bumpDelta (m.per_core cid))
      (fun p => p.cache_misses) 0 rfl]
    omega
  · show m.memory_stall_cycles + 1 = _
    simp only [bump_stall_per_core]
    rw [sum_update_field n cid hcid m.per_core (bumpDelta (m.per_core cid))
      (fun p => p.memory_stall_cycles) 1 rfl]
    omega

theorem memory_phase_sum_inv (hl cc cid n : Nat) (hcid : cid < n) :
    ∀ (pipe : List Instruction) (m : Metrics), percore_sum_inv m n →
      percore_sum_inv (memory_phase hl cc cid pipe m).2 n := by
  intro pipe
  induction pipe with
  | nil => intro m h; exact h
  | cons i rest ih =>
      intro m h
      unfold memory_phase
      apply ih
      by_cases hb : (memory_instr hl cc i).2
      · simpa [hb] using bump_stall_sum_inv m cid n hcid h
      · simpa [hb] using h

theorem step_memory_sum_inv (cc n : Nat) :
    ∀ (cs : List CoreState) (idx : Nat) (m : Metrics), idx + cs.length ≤ n →
      percore_sum_inv m n → percore_sum_inv (step_memory cc idx cs m).2 n := by
  intro cs
  induction cs with
  | nil => intro idx m _ h; exact h
  | cons c rest ih =>
      intro idx m hlen h
      unfold step_memory
      apply ih (idx + 1)
      · simp only [List.length_cons] at hlen
        omega
      · apply memory_phase_sum_inv
        · simp only [List.length_cons] at hlen
          omega
        · exact h

theorem execute_phase_sum_inv (ml cc cid n : Nat) (hcid : cid < n) :
    ∀ (pipe : List Instruction) (cache : Cache) (m : Metrics), percore_sum_inv m n →
      percore_sum_inv (execute_phase ml cc cid cache pipe m).2.2 n := by
  intro pipe
  induction pipe with
  | nil => intro cache m h; exact h
  | cons i rest ih =>
      intro cache m h
      unfold execute_phase
      apply ih
      cases hev : (execute_instr ml cc cache i).2.2 with
      | none => simpa [hev] using h
      | some ev => simpa [hev] using record_access_sum_inv m cid ev.1 ev.2 n hcid h

theorem step_execute_sum_inv (ml cc n : Nat) :
    ∀ (cs : List CoreState) (idx : Nat) (m : Metrics), idx + cs.length ≤ n →
      percore_sum_inv m n → percore_sum_inv (step_execute ml cc idx cs m).2 n := by
  intro cs
  induction cs with
  | nil => intro idx m _ h; exact h
  | cons c rest ih =>
      intro idx m hlen h
      unfold step_execute
      apply ih (idx + 1)
      · simp only [List.length_cons] at hlen
        omega
      · apply execute_phase_sum_inv
        · simp only [List.length_cons] at hlen
          omega
        · exact h

theorem step_memory_cores_length (cc : Nat) :
    ∀ (cs : List CoreState) (idx : Nat) (m : Metrics),
      (step_memory cc idx cs m).1.length = cs.length := by
  intro cs
  induction cs with
  | nil => intro idx m; rfl
  | cons c rest ih =>
      intro idx m
      unfold step_memory
      simp [ih]

theorem step_execute_cores_length (ml cc : Nat) :
    ∀ (cs : List CoreState) (idx : Nat) (m : Metrics),
      (step_execute ml cc idx cs m).1.length = cs.length := by
  intro cs
  induction cs with
  | nil => intro idx m; rfl
  | cons c rest ih =>
      intro idx m
      unfold step_execute
      simp [ih]

theorem step_cores_length (s : Simulator) : s.step.cores.length = s.cores.length := by
  unfold Simulator.step step_admission step_fetch step_commit
  simp [step_execute_cores_length, step_memory_cores_length]

theorem step_num_cores (s : Simulator) : s.step.num_cores = s.num_cores := rfl

theorem step_sum_inv (s : Simulator) (hlen : s.cores.length = s.num_cores)
    (h : percore_sum_inv s.metrics s.num_cores) :
    percore_sum_inv s.step.metrics s.num_cores := by
  have h2 := step_memory_sum_inv s.stage_cycles.commit_cycles s.num_cores
    (step_commit s.cores) 0 s.metrics (by simp [step_commit, hlen]) h
  have h3 := step_execute_sum_inv s.memory.access_latency_cycles s.stage_cycles.commit_cycles
    s.num_cores (step_memory s.stage_cycles.commit_cycles 0 (step_commit s.cores) s.metrics).1 0
    (step_memory s.stage_cycles.commit_cycles 0 (step_commit s.cores) s.metrics).2
    (by simp [step_memory_cores_length, step_commit, hlen]) h2
  exact h3

theorem iterate_step_sum_inv (k : Nat) (s : Simulator) (hlen : s.cores.length = s.num_cores)
    (h : percore_sum_inv s.metrics s.num_cores) :
    percore_sum_inv (Simulator.step^[k] s).metrics s.num_cores := by
  induction k generalizing s with
  | zero => exact h
  | succ k ih =>
      rw [Function.iterate_succ_apply]
      have hl : s.step.cores.length = s.step.num_cores := by
        rw [step_cores_length, step_num_cores, hlen]
      have := ih s.step hl (step_sum_inv s hlen h)
      simpa using this

theorem mk_cores_length (cc : CacheConfig) (pw : Nat) :
    ∀ (n : Nat) (cores : List CoreState), mk_cores n cc pw = some cores → cores.length = n := by
  intro n
  induction n with
  | zero => intro cores h; simp [mk_cores] at h; simp [← h]
  | succ n ih =>
      intro cores h
      unfold mk_cores at h
      cases hc : Cache.new cc with
      | none => rw [hc] at h; exact Option.noConfusion h
      | some cache =>
          rw [hc] at h
          cases hr : mk_cores n cc pw with
          | none => rw [hr] at h; exact Option.noConfusion h
          | some rest =>
              rw [hr] at h
              have := Option.some.inj h
              subst this
              simp [ih rest hr]

theorem push_workload_length (cores : List CoreState) (cid : Nat) (instrs : List Instruction) :
    (push_workload cores cid instrs).length = cores.length := by
  unfold push_workload
  cases h : cores[cid]? <;> simp

theorem load_go_length (sch : Scheduler) :
    ∀ (tw : List (List Instruction)) (cores : List CoreState) (tid : Nat),
      (load_go sch cores tid tw).length = cores.length := by
  intro tw
  induction tw with
  | nil => intro cores tid; rfl
  | cons instrs rest ih =>
      intro cores tid
      unfold load_go
      rw [ih, push_workload_length]

theorem simulator_new_num_cores (nc nt pw : Nat) (cc : CacheConfig) (mc : MemoryConfig)
    (sim : Simulator) (h : Simulator.new nc nt cc mc pw = some sim) :
    sim.num_cores = nc ∧ sim.cores.length = nc := by
  unfold Simulator.new at h
  cases hmk : mk_cores nc cc pw with
  | none => rw [hmk] at h; exact Option.noConfusion h
  | some cores =>
      rw [hmk] at h
      have := Option.some.inj h
      subst this
      exact ⟨rfl, mk_cores_length cc pw nc cores hmk⟩

/-- C10 (confirmed): on an engine constructed via `Simulator::new` and loaded
with any workload, after any number of steps each of the four shared counters
(total memory accesses, cache hits, cache misses, memory stall cycles) equals
the sum of the corresponding per-core counters; moreover `record_access` for a
core of the engine preserves this property. -/
theorem shared_counters_eq_percore_sums (nc nt pw k : Nat) (cc : CacheConfig)
    (mc : MemoryConfig) (tw : List (List Instruction)) (sim : Simulator)
    (h : Simulator.new nc nt cc mc pw = some sim) :
    percore_sum_inv (Simulator.step^[k] (sim.load_workload tw)).metrics nc ∧
    (∀ (m : Metrics) (cid : Nat) (hit : Bool) (st : Nat), cid < nc →
      percore_sum_inv m nc → percore_sum_inv (m.record_access cid hit st) nc) := by
  obtain ⟨hnum, hlen⟩ := simulator_new_num_cores nc nt pw cc mc sim h
  have hmet : sim.metrics = Metrics.new := simulator_new_metrics nc nt pw cc mc sim h
  constructor
  · have hload_num : (sim.load_workload tw).num_cores = nc := hnum
    have hload_len : (sim.load_workload tw).cores.length = nc := by
      unfold Simulator.load_workload
      simpa [load_go_length] using hlen
    have h0 : percore_sum_inv (sim.load_workload tw).metrics nc := by
      have : (sim.load_workload tw).metrics = Metrics.new := hmet
      rw [this]
      refine ⟨?_, ?_, ?_, ?_⟩ <;> simp [Metrics.new, PerCoreMetrics.zero]
    have := iterate_step_sum_inv k (sim.load_workload tw)
      (by rw [hload_len, hload_num]) (by rw [hload_num]; exact h0)
    rw [hload_num] at this
    exact this
  · intro m cid hit st hcid hm
    exact record_access_sum_inv m cid hit st nc hcid hm

/-- C10 witness: the invariant after 9 steps of the concrete run, and a
concrete `record_access` application on core 0. -/
theorem shared_counters_eq_percore_sums_witness :
    percore_sum_inv (Simulator.step^[9] (simW.load_workload workW)).metrics 1 ∧
    (0 < 1 ∧ percore_sum_inv Metrics.new 1 ∧
      percore_sum_inv (Metrics.new.record_access 0 false 7) 1) := by
  have h := shared_counters_eq_percore_sums 1 1 2 9 cfg3 ⟨2⟩ workW simW rfl
  have hz : percore_sum_inv Metrics.new 1 := by
    refine ⟨?_, ?_, ?_, ?_⟩ <;> simp [Metrics.new, PerCoreMetrics.zero]
  exact ⟨h.1, by omega, hz, h.2 Metrics.new 0 false 7 (by omega) hz⟩

/-! ### Claim C2: termination and draining of `run_to_completion`

The proof goes through a per-core view: since no substage couples one core's
pipeline/workload/cache to another core's (the metrics sink is write-only),
`Simulator.step` acts on the core list as `List.map core_step`, and a
per-instruction lexicographic measure (stage rank, stalled flag, stall
countdown, stage countdown) strictly decreases for every in-flight instruction
each cycle, while admission trades a pending instruction for a bounded-measure
pipeline entry.  This fails only when the pipeline width is zero — admission
then never drains a nonempty queue, which refutes the claim as stated. -/

theorem memory_phase_fst (hl cc cid : Nat) :
    ∀ (pipe : List Instruction) (m : Metrics),
      (memory_phase hl cc cid pipe m).1 = pipe.map (fun i => (memory_instr hl cc i).1) := by
  intro pipe
  induction pipe with
  | nil => intro m; rfl
  | cons i rest ih =>
      intro m
      unfold memory_phase
      simp [ih]

theorem step_memory_fst (cc : Nat) :
    ∀ (cs : List CoreState) (idx : Nat) (m : Metrics),
      (step_memory cc idx cs m).1 = cs.map (fun c =>
        { c with pipeline :=
            c.pipeline.map (fun i => (memory_instr c.cache.hit_latency_cycles cc i).1) }) := by
  intro cs
  induction cs with
  | nil => intro idx m; rfl
  | cons c rest ih =>
      intro idx m
      unfold step_memory
      simp [ih, memory_phase_fst]

theorem execute_phase_pure_eq (ml cc cid : Nat) :
    ∀ (pipe : List Instruction) (cache : Cache) (m : Metrics),
      (execute_phase ml cc cid cache pipe m).1 = (execute_phase_pure ml cc cache pipe).1 ∧
      (execute_phase ml cc cid cache pipe m).2.1 = (execute_phase_pure ml cc cache pipe).2 := by
  intro pipe
  induction pipe with
  | nil => intro cache m; exact ⟨rfl, rfl⟩
  | cons i rest ih =>
      intro cache m
      unfold execute_phase execute_phase_pure
      cases hev : (execute_instr ml cc cache i).2.2 with
      | none =>
          simp only [hev]
          exact ⟨by simp [(ih _ _).1], by simp [(ih _ _).2]⟩
      | some ev =>
          simp only [hev]
          exact ⟨by simp [(ih _ _).1], by simp [(ih _ _).2]⟩

theorem step_execute_fst (ml cc : Nat) :
    ∀ (cs : List CoreState) (idx : Nat) (m : Metrics),
      (step_execute ml cc idx cs m).1 = cs.map (fun c =>
        { c with pipeline := (execute_phase_pure ml cc c.cache c.pipeline).1,
                 cache := (execute_phase_pure ml cc c.cache c.pipeline).2 }) := by
  intro cs
  induction cs with
  | nil => intro idx m; rfl
  | cons c rest ih =>
      intro idx m
      unfold step_execute
      simp [ih, (execute_phase_pure_eq ml cc idx c.pipeline c.cache m).1,
        (execute_phase_pure_eq ml cc idx c.pipeline c.cache m).2]

/-- `Simulator.step` acts on the core list as `map core_step`. -/
theorem step_cores_eq (s : Simulator) :
    s.step.cores = s.cores.map (core_step s.stage_cycles s.memory.access_latency_cycles) := by
  show (step_admission _ (step_fetch _ (step_execute _ _ 0 (step_memory _ 0
      (step_commit s.cores) s.metrics).1 (step_memory _ 0 (step_commit s.cores) s.metrics).2).1)) =
    s.cores.map (core_step s.stage_cycles s.memory.access_latency_cycles)
  rw [step_execute_fst, step_memory_fst]
  unfold step_admission step_fetch step_commit
  simp only [List.map_map]
  rfl

/-! #### The termination measure -/

theorem imeasure_lt_wweight (Sb Cb fc : Nat) (i : Instruction)
    (hst : i.stall_cycles_left ≤ Sb) (hfc : fc ≤ Cb) :
    imeasure Sb Cb { i with stage := PipelineStage.Fetch, stage_cycles_left := fc } + 2 ≤
      wweight Sb Cb := by
  unfold imeasure wweight
  simp only [stage_rank]
  have hb : bitv i.stalled ≤ 1 := by cases i.stalled <;> simp [bitv]
  have h1 : 3 * 2 + bitv i.stalled ≤ 7 := by omega
  have h2 : (3 * 2 + bitv i.stalled) * (Sb + 1) + i.stall_cycles_left ≤
      7 * (Sb + 1) + Sb := by
    have := Nat.mul_le_mul_right (Sb + 1) h1
    omega
  have h3 : ((3 * 2 + bitv i.stalled) * (Sb + 1) + i.stall_cycles_left) * (Cb + 1) ≤
      (7 * (Sb + 1) + Sb) * (Cb + 1) :=
    Nat.mul_le_mul_right (Cb + 1) h2
  omega

/-- Dominance: a drop in the (stage, stalled) coefficient beats any change in
the bounded counters. -/
theorem imeasure_key (Sb Cb x x' s s' c c' : Nat) (hx : x' < x) (hs' : s' ≤ Sb) (hc' : c' ≤ Cb) :
    (x' * (Sb + 1) + s') * (Cb + 1) + c' < (x * (Sb + 1) + s) * (Cb + 1) + c := by
  have h1 : x' * (Sb + 1) + s' + 1 ≤ (x' + 1) * (Sb + 1) := by
    have e1 : (x' + 1) * (Sb + 1) = x' * (Sb + 1) + (Sb + 1) := by ring
    omega
  have h2 : (x' * (Sb + 1) + s' + 1) * (Cb + 1) ≤ ((x' + 1) * (Sb + 1)) * (Cb + 1) :=
    Nat.mul_le_mul_right _ h1
  have h3 : ((x' + 1) * (Sb + 1)) * (Cb + 1) ≤ (x * (Sb + 1)) * (Cb + 1) :=
    Nat.mul_le_mul_right _ (Nat.mul_le_mul_right _ hx)
  have h4 : (x * (Sb + 1)) * (Cb + 1) ≤ (x * (Sb + 1) + s) * (Cb + 1) :=
    Nat.mul_le_mul_right _ (Nat.le_add_right _ _)
  have e2 : (x' * (Sb + 1) + s' + 1) * (Cb + 1) = (x' * (Sb + 1) + s') * (Cb + 1) + (Cb + 1) := by
    ring
  omega

/-- A drop in the stall counter (same stage and stalled flag) beats any change
in the bounded stage counter. -/
theorem imeasure_key2 (Sb Cb x s s' c c' : Nat) (hs : s' < s) (hc' : c' ≤ Cb) :
    (x * (Sb + 1) + s') * (Cb + 1) + c' < (x * (Sb + 1) + s) * (Cb + 1) + c := by
  have h2 : (x * (Sb + 1) + s' + 1) * (Cb + 1) ≤ (x * (Sb + 1) + s) * (Cb + 1) :=
    Nat.mul_le_mul_right _ (by omega)
  have e2 : (x * (Sb + 1) + s' + 1) * (Cb + 1) = (x * (Sb + 1) + s') * (Cb + 1) + (Cb + 1) := by
    ring
  omega

theorem commit_instr_spec (Sb Cb : Nat) (i : Instruction) (hb : ibnd Sb Cb i) :
    (i.stage ≠ PipelineStage.Commit → commit_instr i = some i) ∧
    (i.stage = PipelineStage.Commit →
      commit_instr i = none ∨
      ∃ i', commit_instr i = some i' ∧ ibnd Sb Cb i' ∧
        imeasure Sb Cb i' < imeasure Sb Cb i) := by
  obtain ⟨kd, ad, icy, scl, st, sd, sl⟩ := i
  replace hb : sl ≤ Sb ∧ scl ≤ Cb := hb
  constructor
  · intro hs
    simp [commit_instr, hs]
  · intro hs
    replace hs : st = PipelineStage.Commit := hs
    subst hs
    by_cases hc : scl > 0
    · right
      refine ⟨Instruction.mk kd ad icy (scl - 1) PipelineStage.Commit sd sl, ?_, ⟨hb.1, ?_⟩, ?_⟩
      · simp [commit_instr, hc]
      · show scl - 1 ≤ Cb
        omega
      · show ((stage_rank PipelineStage.Commit * 2 + bitv sd) * (Sb + 1) + sl) * (Cb + 1) +
            (scl - 1) <
          ((stage_rank PipelineStage.Commit * 2 + bitv sd) * (Sb + 1) + sl) * (Cb + 1) + scl
        omega
    · left
      simp [commit_instr, hc]

theorem memory_instr_spec (hl cc Sb Cb : Nat) (hhl : hl ≤ Cb) (hcc : cc ≤ Cb)
    (i : Instruction) (hb : ibnd Sb Cb i) :
    ibnd Sb Cb (memory_instr hl cc i).1 ∧
    imeasure Sb Cb (memory_instr hl cc i).1 ≤ imeasure Sb Cb i ∧
    (i.stage = PipelineStage.Memory →
      imeasure Sb Cb (memory_instr hl cc i).1 < imeasure Sb Cb i) ∧
    (i.stage ≠ PipelineStage.Memory → (memory_instr hl cc i).1 = i) := by
  obtain ⟨kd, ad, icy, scl, st, sd, sl⟩ := i
  replace hb : sl ≤ Sb ∧ scl ≤ Cb := hb
  by_cases hmem : st = PipelineStage.Memory
  · subst hmem
    by_cases hstalled : sd = true
    · subst hstalled
      by_cases hs0 : sl > 0
      · by_cases hz : sl - 1 = 0
        · have heq : (memory_instr hl cc
              (Instruction.mk kd ad icy scl PipelineStage.Memory true sl)).1 =
              Instruction.mk kd ad icy hl PipelineStage.Memory false (sl - 1) := by
            simp [memory_instr, hs0, hz]
          rw [heq]
          have hlt : imeasure Sb Cb
              (Instruction.mk kd ad icy hl PipelineStage.Memory false (sl - 1)) <
              imeasure Sb Cb (Instruction.mk kd ad icy scl PipelineStage.Memory true sl) := by
            show ((1 * 2 + 0) * (Sb + 1) + (sl - 1)) * (Cb + 1) + hl <
              ((1 * 2 + 1) * (Sb + 1) + sl) * (Cb + 1) + scl
            exact imeasure_key Sb Cb (1 * 2 + 1) (1 * 2 + 0) sl (sl - 1) scl hl
              (by omega) (by omega) hhl
          exact ⟨⟨by show sl - 1 ≤ Sb; omega, by show hl ≤ Cb; exact hhl⟩,
            Nat.le_of_lt hlt, fun _ => hlt, fun h => absurd rfl h⟩
        · have heq : (memory_instr hl cc
              (Instruction.mk kd ad icy scl PipelineStage.Memory true sl)).1 =
              Instruction.mk kd ad icy scl PipelineStage.Memory true (sl - 1) := by
            simp [memory_instr, hs0, hz]
          rw [heq]
          have hlt : imeasure Sb Cb
              (Instruction.mk kd ad icy scl PipelineStage.Memory true (sl - 1)) <
              imeasure Sb Cb (Instruction.mk kd ad icy scl PipelineStage.Memory true sl) := by
            show ((1 * 2 + 1) * (Sb + 1) + (sl - 1)) * (Cb + 1) + scl <
              ((1 * 2 + 1) * (Sb + 1) + sl) * (Cb + 1) + scl
            exact imeasure_key2 Sb Cb (1 * 2 + 1) sl (sl - 1) scl scl (by omega) hb.2
          exact ⟨⟨by show sl - 1 ≤ Sb; omega, hb.2⟩,
            Nat.le_of_lt hlt, fun _ => hlt, fun h => absurd rfl h⟩
      · have hsl : sl = 0 := by omega
        subst hsl
        have heq : (memory_instr hl cc
            (Instruction.mk kd ad icy scl PipelineStage.Memory true 0)).1 =
            Instruction.mk kd ad icy hl PipelineStage.Memory false 0 := by
          simp [memory_instr]
        rw [heq]
        have hlt : imeasure Sb Cb
            (Instruction.mk kd ad icy hl PipelineStage.Memory false 0) <
            imeasure Sb Cb (Instruction.mk kd ad icy scl PipelineStage.Memory true 0) := by
          show ((1 * 2 + 0) * (Sb + 1) + 0) * (Cb + 1) + hl <
            ((1 * 2 + 1) * (Sb + 1) + 0) * (Cb + 1) + scl
          exact imeasure_key Sb Cb (1 * 2 + 1) (1 * 2 + 0) 0 0 scl hl
            (by omega) (by omega) hhl
        exact ⟨⟨Nat.zero_le _, by show hl ≤ Cb; exact hhl⟩,
          Nat.le_of_lt hlt, fun _ => hlt, fun h => absurd rfl h⟩
    · replace hstalled : sd = false := by
        cases sd
        · rfl
        · exact absurd rfl hstalled
      subst hstalled
      by_cases hc0 : scl > 0
      · have heq : (memory_instr hl cc
            (Instruction.mk kd ad icy scl PipelineStage.Memory false sl)).1 =
            Instruction.mk kd ad icy (scl - 1) PipelineStage.Memory false sl := by
          simp [memory_instr, hc0]
        rw [heq]
        have hlt : imeasure Sb Cb
            (Instruction.mk kd ad icy (scl - 1) PipelineStage.Memory false sl) <
            imeasure Sb Cb (Instruction.mk kd ad icy scl PipelineStage.Memory false sl) := by
          show ((stage_rank PipelineStage.Memory * 2 + bitv false) * (Sb + 1) + sl) * (Cb + 1) +
              (scl - 1) <
            ((stage_rank PipelineStage.Memory * 2 + bitv false) * (Sb + 1) + sl) * (Cb + 1) + scl
          omega
        exact ⟨⟨hb.1, by show scl - 1 ≤ Cb; omega⟩,
          Nat.le_of_lt hlt, fun _ => hlt, fun h => absurd rfl h⟩
      · have heq : (memory_instr hl cc
            (Instruction.mk kd ad icy scl PipelineStage.Memory false sl)).1 =
            Instruction.mk kd ad icy cc PipelineStage.Commit false sl := by
          simp [memory_instr, hc0]
        rw [heq]
        have hlt : imeasure Sb Cb
            (Instruction.mk kd ad icy cc PipelineStage.Commit false sl) <
            imeasure Sb Cb (Instruction.mk kd ad icy scl PipelineStage.Memory false sl) := by
          show ((0 * 2 + 0) * (Sb + 1) + sl) * (Cb + 1) + cc <
            ((1 * 2 + 0) * (Sb + 1) + sl) * (Cb + 1) + scl
          exact imeasure_key Sb Cb (1 * 2 + 0) (0 * 2 + 0) sl sl scl cc (by omega) hb.1 hcc
        exact ⟨⟨hb.1, by show cc ≤ Cb; exact hcc⟩,
          Nat.le_of_lt hlt, fun _ => hlt, fun h => absurd rfl h⟩
  · have heq : (memory_instr hl cc (Instruction.mk kd ad icy scl st sd sl)).1 =
        Instruction.mk kd ad icy scl st sd sl := by
      simp [memory_instr, hmem]
    rw [heq]
    exact ⟨hb, Nat.le_refl _, fun h => absurd h hmem, fun _ => rfl⟩

theorem fetch_instr_spec (ec Sb Cb : Nat) (hec : ec ≤ Cb)
    (i : Instruction) (hb : ibnd Sb Cb i) :
    ibnd Sb Cb (fetch_instr ec i) ∧
    imeasure Sb Cb (fetch_instr ec i) ≤ imeasure Sb Cb i ∧
    (i.stage = PipelineStage.Fetch →
      imeasure Sb Cb (fetch_instr ec i) < imeasure Sb Cb i) ∧
    (i.stage ≠ PipelineStage.Fetch → fetch_instr ec i = i) := by
  obtain ⟨kd, ad, icy, scl, st, sd, sl⟩ := i
  replace hb : sl ≤ Sb ∧ scl ≤ Cb := hb
  by_cases hf : st = PipelineStage.Fetch
  · subst hf
    by_cases hc0 : scl > 0
    · have heq : fetch_instr ec (Instruction.mk kd ad icy scl PipelineStage.Fetch sd sl) =
          Instruction.mk kd ad icy (scl - 1) PipelineStage.Fetch sd sl := by
        simp [fetch_instr, hc0]
      rw [heq]
      have hlt : imeasure Sb Cb
          (Instruction.mk kd ad icy (scl - 1) PipelineStage.Fetch sd sl) <
          imeasure Sb Cb (Instruction.mk kd ad icy scl PipelineStage.Fetch sd sl) := by
        show ((stage_rank PipelineStage.Fetch * 2 + bitv sd) * (Sb + 1) + sl) * (Cb + 1) +
            (scl - 1) <
          ((stage_rank PipelineStage.Fetch * 2 + bitv sd) * (Sb + 1) + sl) * (Cb + 1) + scl
        omega
      exact ⟨⟨hb.1, by show scl - 1 ≤ Cb; omega⟩,
        Nat.le_of_lt hlt, fun _ => hlt, fun h => absurd rfl h⟩
    · have heq : fetch_instr ec (Instruction.mk kd ad icy scl PipelineStage.Fetch sd sl) =
          Instruction.mk kd ad icy ec PipelineStage.Execute sd sl := by
        simp [fetch_instr, hc0]
      rw [heq]
      have hlt : imeasure Sb Cb
          (Instruction.mk kd ad icy ec PipelineStage.Execute sd sl) <
          imeasure Sb Cb (Instruction.mk kd ad icy scl PipelineStage.Fetch sd sl) := by
        show ((2 * 2 + bitv sd) * (Sb + 1) + sl) * (Cb + 1) + ec <
          ((3 * 2 + bitv sd) * (Sb + 1) + sl) * (Cb + 1) + scl
        exact imeasure_key Sb Cb (3 * 2 + bitv sd) (2 * 2 + bitv sd) sl sl scl ec
          (by omega) hb.1 hec
      exact ⟨⟨hb.1, by show ec ≤ Cb; exact hec⟩,
        Nat.le_of_lt hlt, fun _ => hlt, fun h => absurd rfl h⟩
  · have heq : fetch_instr ec (Instruction.mk kd ad icy scl st sd sl) =
        Instruction.mk kd ad icy scl st sd sl := by
      simp [fetch_instr, hf]
    rw [heq]
    exact ⟨hb, Nat.le_refl _, fun h => absurd h hf, fun _ => rfl⟩

theorem cache_access_config (c : Cache) (a : Nat) : ((c.access a).2).config = c.config := by
  cases hget : c.sets[(c.address_to_set_and_tag a).1]? with
  | none => rw [cache_access_of_getElem_none c a hget]
  | some s0 => rw [cache_access_of_getElem_some c a s0 hget]

theorem execute_instr_spec (ml cc Sb Cb : Nat) (hcc : cc ≤ Cb) (hml : ml ≤ Sb)
    (cache : Cache) (hhl : cache.config.hit_latency_cycles ≤ Cb)
    (i : Instruction) (hb : ibnd Sb Cb i) :
    ibnd Sb Cb (execute_instr ml cc cache i).1 ∧
    imeasure Sb Cb (execute_instr ml cc cache i).1 ≤ imeasure Sb Cb i ∧
    (i.stage = PipelineStage.Execute →
      imeasure Sb Cb (execute_instr ml cc cache i).1 < imeasure Sb Cb i) ∧
    (i.stage ≠ PipelineStage.Execute → (execute_instr ml cc cache i).1 = i) ∧
    ((execute_instr ml cc cache i).2.1).config = cache.config := by
  obtain ⟨kd, ad, icy, scl, st, sd, sl⟩ := i
  replace hb : sl ≤ Sb ∧ scl ≤ Cb := hb
  by_cases he : st = PipelineStage.Execute
  · subst he
    by_cases hc0 : scl > 0
    · have heq : (execute_instr ml cc cache
          (Instruction.mk kd ad icy scl PipelineStage.Execute sd sl)).1 =
          Instruction.mk kd ad icy (scl - 1) PipelineStage.Execute sd sl := by
        simp [execute_instr, hc0]
      have heqc : ((execute_instr ml cc cache
          (Instruction.mk kd ad icy scl PipelineStage.Execute sd sl)).2.1) = cache := by
        simp [execute_instr, hc0]
      rw [heq, heqc]
      have hlt : imeasure Sb Cb
          (Instruction.mk kd ad icy (scl - 1) PipelineStage.Execute sd sl) <
          imeasure Sb Cb (Instruction.mk kd ad icy scl PipelineStage.Execute sd sl) := by
        show ((stage_rank PipelineStage.Execute * 2 + bitv sd) * (Sb + 1) + sl) * (Cb + 1) +
            (scl - 1) <
          ((stage_rank PipelineStage.Execute * 2 + bitv sd) * (Sb + 1) + sl) * (Cb + 1) + scl
        omega
      exact ⟨⟨hb.1, by show scl - 1 ≤ Cb; omega⟩,
        Nat.le_of_lt hlt, fun _ => hlt, fun h => absurd rfl h, rfl⟩
    · by_cases hm : (Instruction.mk kd ad icy scl PipelineStage.Execute sd sl).is_memory_op
      · by_cases hhit : (cache.access ad).1 = CacheAccessResult.Hit
        · have heq : (execute_instr ml cc cache
              (Instruction.mk kd ad icy scl PipelineStage.Execute sd sl)).1 =
              Instruction.mk kd ad icy (cache.access ad).2.hit_latency_cycles
                PipelineStage.Memory sd sl := by
            simp [execute_instr, hc0, hm, hhit]
          have heqc : ((execute_instr ml cc cache
              (Instruction.mk kd ad icy scl PipelineStage.Execute sd sl)).2.1) =
              (cache.access ad).2 := by
            simp [execute_instr, hc0, hm, hhit]
          have hhl2 : (cache.access ad).2.hit_latency_cycles ≤ Cb := by
            unfold Cache.hit_latency_cycles
            rw [cache_access_config]
            exact hhl
          rw [heq, heqc]
          have hlt : imeasure Sb Cb
              (Instruction.mk kd ad icy (cache.access ad).2.hit_latency_cycles
                PipelineStage.Memory sd sl) <
              imeasure Sb Cb (Instruction.mk kd ad icy scl PipelineStage.Execute sd sl) := by
            show ((1 * 2 + bitv sd) * (Sb + 1) + sl) * (Cb + 1) +
                (cache.access ad).2.hit_latency_cycles <
              ((2 * 2 + bitv sd) * (Sb + 1) + sl) * (Cb + 1) + scl
            exact imeasure_key Sb Cb (2 * 2 + bitv sd) (1 * 2 + bitv sd) sl sl scl _
              (by omega) hb.1 hhl2
          exact ⟨⟨hb.1, by show (cache.access ad).2.hit_latency_cycles ≤ Cb; exact hhl2⟩,
            Nat.le_of_lt hlt, fun _ => hlt, fun h => absurd rfl h,
            cache_access_config cache ad⟩
        · have heq : (execute_instr ml cc cache
              (Instruction.mk kd ad icy scl PipelineStage.Execute sd sl)).1 =
              Instruction.mk kd ad icy scl PipelineStage.Memory true ml := by
            simp [execute_instr, hc0, hm, hhit]
          have heqc : ((execute_instr ml cc cache
              (Instruction.mk kd ad icy scl PipelineStage.Execute sd sl)).2.1) =
              (cache.access ad).2 := by
            simp [execute_instr, hc0, hm, hhit]
          rw [heq, heqc]
          have hlt : imeasure Sb Cb
              (Instruction.mk kd ad icy scl PipelineStage.Memory true ml) <
              imeasure Sb Cb (Instruction.mk kd ad icy scl PipelineStage.Execute sd sl) := by
            show ((1 * 2 + 1) * (Sb + 1) + ml) * (Cb + 1) + scl <
              ((2 * 2 + bitv sd) * (Sb + 1) + sl) * (Cb + 1) + scl
            exact imeasure_key Sb Cb (2 * 2 + bitv sd) (1 * 2 + 1) sl ml scl scl
              (by cases sd <;> simp [bitv]) hml hb.2
          exact ⟨⟨by show ml ≤ Sb; exact hml, hb.2⟩,
            Nat.le_of_lt hlt, fun _ => hlt, fun h => absurd rfl h,
            cache_access_config cache ad⟩
      · have heq : (execute_instr ml cc cache
            (Instruction.mk kd ad icy scl PipelineStage.Execute sd sl)).1 =
            Instruction.mk kd ad icy cc PipelineStage.Commit sd sl := by
          simp [execute_instr, hc0, hm]
        have heqc : ((execute_instr ml cc cache
            (Instruction.mk kd ad icy scl PipelineStage.Execute sd sl)).2.1) = cache := by
          simp [execute_instr, hc0, hm]
        rw [heq, heqc]
        have hlt : imeasure Sb Cb
            (Instruction.mk kd ad icy cc PipelineStage.Commit sd sl) <
            imeasure Sb Cb (Instruction.mk kd ad icy scl PipelineStage.Execute sd sl) := by
          show ((0 * 2 + bitv sd) * (Sb + 1) + sl) * (Cb + 1) + cc <
            ((2 * 2 + bitv sd) * (Sb + 1) + sl) * (Cb + 1) + scl
          exact imeasure_key Sb Cb (2 * 2 + bitv sd) (0 * 2 + bitv sd) sl sl scl cc
            (by omega) hb.1 hcc
        exact ⟨⟨hb.1, by show cc ≤ Cb; exact hcc⟩,
          Nat.le_of_lt hlt, fun _ => hlt, fun h => absurd rfl h, rfl⟩
  · have heq : (execute_instr ml cc cache (Instruction.mk kd ad icy scl st sd sl)).1 =
        Instruction.mk kd ad icy scl st sd sl := by
      simp [execute_instr, he]
    have heqc : ((execute_instr ml cc cache (Instruction.mk kd ad icy scl st sd sl)).2.1) =
        cache := by
      simp [execute_instr, he]
    rw [heq, heqc]
    exact ⟨hb, Nat.le_refl _, fun h => absurd h he, fun _ => rfl, rfl⟩

theorem pmeasure_cons (Sb Cb : Nat) (i : Instruction) (rest : List Instruction) :
    pmeasure Sb Cb (i :: rest) = (imeasure Sb Cb i + 1) + pmeasure Sb Cb rest := by
  unfold pmeasure
  simp

theorem pmeasure_append_singleton (Sb Cb : Nat) (pipe : List Instruction) (i : Instruction) :
    pmeasure Sb Cb (pipe ++ [i]) = pmeasure Sb Cb pipe + (imeasure Sb Cb i + 1) := by
  unfold pmeasure
  simp

theorem commit_instr_of_ne (i : Instruction) (hs : i.stage ≠ PipelineStage.Commit) :
    commit_instr i = some i := by
  simp [commit_instr, hs]

theorem memory_instr_of_ne (hl cc : Nat) (i : Instruction)
    (hs : i.stage ≠ PipelineStage.Memory) : (memory_instr hl cc i).1 = i := by
  simp [memory_instr, hs]

theorem fetch_instr_of_ne (ec : Nat) (i : Instruction)
    (hs : i.stage ≠ PipelineStage.Fetch) : fetch_instr ec i = i := by
  simp [fetch_instr, hs]

theorem execute_instr_of_ne (ml cc : Nat) (cache : Cache) (i : Instruction)
    (hs : i.stage ≠ PipelineStage.Execute) :
    (execute_instr ml cc cache i).1 = i ∧ (execute_instr ml cc cache i).2.1 = cache := by
  constructor <;> simp [execute_instr, hs]

theorem commit_phase_le (Sb Cb : Nat) :
    ∀ (pipe : List Instruction), (∀ i ∈ pipe, ibnd Sb Cb i) →
      (∀ i' ∈ pipe.filterMap commit_instr, ibnd Sb Cb i') ∧
      pmeasure Sb Cb (pipe.filterMap commit_instr) ≤ pmeasure Sb Cb pipe := by
  intro pipe
  induction pipe with
  | nil => intro _; exact ⟨by simp, Nat.le_refl _⟩
  | cons i rest ih =>
      intro hb
      obtain ⟨ih1, ih2⟩ := ih (fun j hj => hb j (List.mem_cons_of_mem i hj))
      have hbi : ibnd Sb Cb i := hb i (List.mem_cons_self i rest)
      by_cases hc : i.stage = PipelineStage.Commit
      · rcases (commit_instr_spec Sb Cb i hbi).2 hc with hnone | ⟨i', hsome, hbi', hlt⟩
        · rw [List.filterMap_cons_none hnone, pmeasure_cons]
          exact ⟨ih1, by omega⟩
        · rw [List.filterMap_cons_some hsome, pmeasure_cons, pmeasure_cons]
          refine ⟨?_, by omega⟩
          intro j hj
          rcases List.mem_cons.mp hj with h | h
          · exact h ▸ hbi'
          · exact ih1 j h
      · have hsome := commit_instr_of_ne i hc
        rw [List.filterMap_cons_some hsome, pmeasure_cons, pmeasure_cons]
        refine ⟨?_, by omega⟩
        intro j hj
        rcases List.mem_cons.mp hj with h | h
        · exact h ▸ hbi
        · exact ih1 j h

theorem commit_phase_lt (Sb Cb : Nat) :
    ∀ (pipe : List Instruction), (∀ i ∈ pipe, ibnd Sb Cb i) →
      (∃ i ∈ pipe, i.stage = PipelineStage.Commit) →
      pmeasure Sb Cb (pipe.filterMap commit_instr) < pmeasure Sb Cb pipe := by
  intro pipe
  induction pipe with
  | nil => intro _ hex; simp at hex
  | cons i rest ih =>
      intro hb hex
      have hbr := fun j hj => hb j (List.mem_cons_of_mem i hj)
      have hbi : ibnd Sb Cb i := hb i (List.mem_cons_self i rest)
      obtain ⟨_, hle⟩ := commit_phase_le Sb Cb rest hbr
      by_cases hc : i.stage = PipelineStage.Commit
      · rcases (commit_instr_spec Sb Cb i hbi).2 hc with hnone | ⟨i', hsome, _, hlt⟩
        · rw [List.filterMap_cons_none hnone, pmeasure_cons]
          omega
        · rw [List.filterMap_cons_some hsome, pmeasure_cons, pmeasure_cons]
          omega
      · rcases hex with ⟨w, hw, hwc⟩
        rcases List.mem_cons.mp hw with h | h
        · exact absurd (h ▸ hwc) hc
        · have := ih hbr ⟨w, h, hwc⟩
          have hsome := commit_instr_of_ne i hc
          rw [List.filterMap_cons_some hsome, pmeasure_cons, pmeasure_cons]
          omega

theorem pmeasure_map_le (Sb Cb : Nat) (f : Instruction → Instruction)
    (hf : ∀ i, ibnd Sb Cb i → ibnd Sb Cb (f i) ∧ imeasure Sb Cb (f i) ≤ imeasure Sb Cb i) :
    ∀ (pipe : List Instruction), (∀ i ∈ pipe, ibnd Sb Cb i) →
      (∀ i' ∈ pipe.map f, ibnd Sb Cb i') ∧
      pmeasure Sb Cb (pipe.map f) ≤ pmeasure Sb Cb pipe := by
  intro pipe
  induction pipe with
  | nil => intro _; exact ⟨by simp, Nat.le_refl _⟩
  | cons i rest ih =>
      intro hb
      obtain ⟨ih1, ih2⟩ := ih (fun j hj => hb j (List.mem_cons_of_mem i hj))
      have hbi : ibnd Sb Cb i := hb i (List.mem_cons_self i rest)
      obtain ⟨hfb, hfle⟩ := hf i hbi
      rw [List.map_cons, pmeasure_cons, pmeasure_cons]
      refine ⟨?_, by omega⟩
      intro j hj
      rcases List.mem_cons.mp hj with h | h
      · exact h ▸ hfb
      · exact ih1 j h

theorem pmeasure_map_lt (Sb Cb : Nat) (f : Instruction → Instruction)
    (hf : ∀ i, ibnd Sb Cb i → ibnd Sb Cb (f i) ∧ imeasure Sb Cb (f i) ≤ imeasure Sb Cb i)
    (σ : PipelineStage)
    (hstrict : ∀ i, ibnd Sb Cb i → i.stage = σ → imeasure Sb Cb (f i) < imeasure Sb Cb i) :
    ∀ (pipe : List Instruction), (∀ i ∈ pipe, ibnd Sb Cb i) →
      (∃ i ∈ pipe, i.stage = σ) →
      pmeasure Sb Cb (pipe.map f) < pmeasure Sb Cb pipe := by
  intro pipe
  induction pipe with
  | nil => intro _ hex; simp at hex
  | cons i rest ih =>
      intro hb hex
      have hbr := fun j hj => hb j (List.mem_cons_of_mem i hj)
      have hbi : ibnd Sb Cb i := hb i (List.mem_cons_self i rest)
      obtain ⟨_, hle⟩ := pmeasure_map_le Sb Cb f hf rest hbr
      rw [List.map_cons, pmeasure_cons, pmeasure_cons]
      rcases hex with ⟨w, hw, hwc⟩
      rcases List.mem_cons.mp hw with h | h
      · have := hstrict i hbi (h ▸ hwc)
        omega
      · have hfle := (hf i hbi).2
        have := ih hbr ⟨w, h, hwc⟩
        omega

theorem execute_pure_spec (ml cc Sb Cb : Nat) (hcc : cc ≤ Cb) (hml : ml ≤ Sb) :
    ∀ (pipe : List Instruction) (cache : Cache),
      cache.config.hit_latency_cycles ≤ Cb → (∀ i ∈ pipe, ibnd Sb Cb i) →
      (∀ i' ∈ (execute_phase_pure ml cc cache pipe).1, ibnd Sb Cb i') ∧
      pmeasure Sb Cb (execute_phase_pure ml cc cache pipe).1 ≤ pmeasure Sb Cb pipe ∧
      ((execute_phase_pure ml cc cache pipe).2).config = cache.config := by
  intro pipe
  induction pipe with
  | nil => intro cache _ _; exact ⟨by simp [execute_phase_pure], Nat.le_refl _, rfl⟩
  | cons i rest ih =>
      intro cache hhl hb
      have hbi : ibnd Sb Cb i := hb i (List.mem_cons_self i rest)
      obtain ⟨hib, hile, _, _, hicfg⟩ := execute_instr_spec ml cc Sb Cb hcc hml cache hhl i hbi
      have hhl' : ((execute_instr ml cc cache i).2.1).config.hit_latency_cycles ≤ Cb := by
        rw [hicfg]; exact hhl
      obtain ⟨ih1, ih2, ih3⟩ := ih ((execute_instr ml cc cache i).2.1) hhl'
        (fun j hj => hb j (List.mem_cons_of_mem i hj))
      have hstep : execute_phase_pure ml cc cache (i :: rest) =
          ((execute_instr ml cc cache i).1 ::
            (execute_phase_pure ml cc ((execute_instr ml cc cache i).2.1) rest).1,
           (execute_phase_pure ml cc ((execute_instr ml cc cache i).2.1) rest).2) := rfl
      rw [hstep]
      refine ⟨?_, ?_, ?_⟩
      · intro j hj
        rcases List.mem_cons.mp hj with h | h
        · exact h ▸ hib
        · exact ih1 j h
      · rw [pmeasure_cons, pmeasure_cons]
        omega
      · simp only []
        rw [ih3, hicfg]

theorem execute_pure_lt (ml cc Sb Cb : Nat) (hcc : cc ≤ Cb) (hml : ml ≤ Sb) :
    ∀ (pipe : List Instruction) (cache : Cache),
      cache.config.hit_latency_cycles ≤ Cb → (∀ i ∈ pipe, ibnd Sb Cb i) →
      (∃ i ∈ pipe, i.stage = PipelineStage.Execute) →
      pmeasure Sb Cb (execute_phase_pure ml cc cache pipe).1 < pmeasure Sb Cb pipe := by
  intro pipe
  induction pipe with
  | nil => intro cache _ _ hex; simp at hex
  | cons i rest ih =>
      intro cache hhl hb hex
      have hbi : ibnd Sb Cb i := hb i (List.mem_cons_self i rest)
      obtain ⟨hib, hile, histrict, _, hicfg⟩ :=
        execute_instr_spec ml cc Sb Cb hcc hml cache hhl i hbi
      have hhl' : ((execute_instr ml cc cache i).2.1).config.hit_latency_cycles ≤ Cb := by
        rw [hicfg]; exact hhl
      have hbr := fun j hj => hb j (List.mem_cons_of_mem i hj)
      obtain ⟨_, ihle, _⟩ := execute_pure_spec ml cc Sb Cb hcc hml rest
        ((execute_instr ml cc cache i).2.1) hhl' hbr
      have hstep : execute_phase_pure ml cc cache (i :: rest) =
          ((execute_instr ml cc cache i).1 ::
            (execute_phase_pure ml cc ((execute_instr ml cc cache i).2.1) rest).1,
           (execute_phase_pure ml cc ((execute_instr ml cc cache i).2.1) rest).2) := rfl
      rw [hstep]
      rw [pmeasure_cons, pmeasure_cons]
      rcases hex with ⟨w, hw, hwc⟩
      rcases List.mem_cons.mp hw with h | h
      · have := histrict (h ▸ hwc)
        omega
      · have := ih ((execute_instr ml cc cache i).2.1) hhl' hbr ⟨w, h, hwc⟩
        omega

theorem execute_pure_mem (ml cc : Nat) :
    ∀ (pipe : List Instruction) (cache : Cache) (i : Instruction),
      i ∈ pipe → i.stage ≠ PipelineStage.Execute →
      i ∈ (execute_phase_pure ml cc cache pipe).1 := by
  intro pipe
  induction pipe with
  | nil => intro cache i hi _; simp at hi
  | cons j rest ih =>
      intro cache i hi hs
      have hstep : execute_phase_pure ml cc cache (j :: rest) =
          ((execute_instr ml cc cache j).1 ::
            (execute_phase_pure ml cc ((execute_instr ml cc cache j).2.1) rest).1,
           (execute_phase_pure ml cc ((execute_instr ml cc cache j).2.1) rest).2) := rfl
      rw [hstep]
      rcases List.mem_cons.mp hi with h | h
      · subst h
        rw [(execute_instr_of_ne ml cc cache i hs).1]
        exact List.mem_cons_self i _
      · exact List.mem_cons_of_mem _ (ih _ i h hs)

theorem admission_spec (Sb Cb width fc : Nat) (hfc : fc ≤ Cb) :
    ∀ (wl pipe : List Instruction), (∀ i ∈ pipe, ibnd Sb Cb i) →
      (∀ i ∈ wl, i.stall_cycles_left ≤ Sb) →
      (∀ i' ∈ (admission_loop width fc pipe wl).1, ibnd Sb Cb i') ∧
      (∀ i' ∈ (admission_loop width fc pipe wl).2, i'.stall_cycles_left ≤ Sb) ∧
      pmeasure Sb Cb (admission_loop width fc pipe wl).1 +
        (admission_loop width fc pipe wl).2.length * wweight Sb Cb ≤
        pmeasure Sb Cb pipe + wl.length * wweight Sb Cb ∧
      (pipe = [] → wl ≠ [] → 0 < width →
        pmeasure Sb Cb (admission_loop width fc pipe wl).1 +
          (admission_loop width fc pipe wl).2.length * wweight Sb Cb <
          pmeasure Sb Cb pipe + wl.length * wweight Sb Cb) := by
  intro wl
  induction wl with
  | nil =>
      intro pipe hbp _
      refine ⟨?_, ?_, ?_, ?_⟩
      · simpa [admission_loop] using hbp
      · simp [admission_loop]
      · simp [admission_loop]
      · intro _ hwl _
        exact absurd rfl hwl
  | cons i rest ih =>
      intro pipe hbp hbw
      by_cases hlt : pipe.length < width
      · set adm : Instruction := { i with stage := PipelineStage.Fetch, stage_cycles_left := fc } with hadm_def
        have hred : admission_loop width fc pipe (i :: rest) =
            admission_loop width fc (pipe ++ [adm]) rest := by
          rw [hadm_def]
          simp only [admission_loop, if_pos hlt]
        have hstall : i.stall_cycles_left ≤ Sb := hbw i (List.mem_cons_self i rest)
        have hadm : ibnd Sb Cb adm := ⟨hstall, hfc⟩
        have hbp' : ∀ j ∈ pipe ++ [adm], ibnd Sb Cb j := by
          intro j hj
          rcases List.mem_append.mp hj with h | h
          · exact hbp j h
          · rcases List.mem_singleton.mp h with rfl
            exact hadm
        have hbw' : ∀ j ∈ rest, j.stall_cycles_left ≤ Sb :=
          fun j hj => hbw j (List.mem_cons_of_mem i hj)
        obtain ⟨ih1, ih2, ih3, _⟩ := ih (pipe ++ [adm]) hbp' hbw'
        have hwadm : imeasure Sb Cb adm + 2 ≤ wweight Sb Cb :=
          imeasure_lt_wweight Sb Cb fc i hstall hfc
        have happ := pmeasure_append_singleton Sb Cb pipe adm
        have hlen : (i :: rest).length * wweight Sb Cb =
            rest.length * wweight Sb Cb + wweight Sb Cb := by
          simp [List.length_cons]
          ring
        rw [hred]
        refine ⟨ih1, ih2, ?_, ?_⟩
        · omega
        · intro _ _ _
          omega
      · have hred : admission_loop width fc pipe (i :: rest) = (pipe, i :: rest) := by
          simp [admission_loop, hlt]
        rw [hred]
        refine ⟨hbp, hbw, Nat.le_refl _, ?_⟩
        intro hpipe _ hwidth
        subst hpipe
        simp at hlt
        omega

theorem core_step_spec (sc : StageCycles) (ml Sb Cb : Nat) (c : CoreState)
    (hcfg : cfg_bnd sc ml Sb Cb c) (hb : core_bnd Sb Cb c) :
    core_bnd Sb Cb (core_step sc ml c) ∧
    ((core_step sc ml c).cache).config = c.cache.config ∧
    (core_step sc ml c).pipeline_width = c.pipeline_width ∧
    cmeasure Sb Cb (core_step sc ml c) ≤ cmeasure Sb Cb c ∧
    ((c.pipeline ≠ [] ∨ c.workload ≠ []) → 1 ≤ c.pipeline_width →
      cmeasure Sb Cb (core_step sc ml c) < cmeasure Sb Cb c) := by
  obtain ⟨hcc, hec, hfc, hml, hhl⟩ := hcfg
  obtain ⟨hbp, hbw⟩ := hb
  obtain ⟨hb1, hle1⟩ := commit_phase_le Sb Cb c.pipeline hbp
  have hmemf : ∀ i, ibnd Sb Cb i →
      ibnd Sb Cb ((memory_instr c.cache.hit_latency_cycles sc.commit_cycles i).1) ∧
      imeasure Sb Cb ((memory_instr c.cache.hit_latency_cycles sc.commit_cycles i).1) ≤
        imeasure Sb Cb i := fun i hbi =>
    ⟨(memory_instr_spec c.cache.hit_latency_cycles sc.commit_cycles Sb Cb hhl hcc i hbi).1,
     (memory_instr_spec c.cache.hit_latency_cycles sc.commit_cycles Sb Cb hhl hcc i hbi).2.1⟩
  obtain ⟨hb2, hle2⟩ := pmeasure_map_le Sb Cb
    (fun i => (memory_instr c.cache.hit_latency_cycles sc.commit_cycles i).1) hmemf
    (c.pipeline.filterMap commit_instr) hb1
  obtain ⟨hb3, hle3, hcfg3⟩ := execute_pure_spec ml sc.commit_cycles Sb Cb hcc hml
    ((c.pipeline.filterMap commit_instr).map
      (fun i => (memory_instr c.cache.hit_latency_cycles sc.commit_cycles i).1))
    c.cache hhl hb2
  have hfetchf : ∀ i, ibnd Sb Cb i →
      ibnd Sb Cb (fetch_instr sc.execute_cycles i) ∧
      imeasure Sb Cb (fetch_instr sc.execute_cycles i) ≤ imeasure Sb Cb i := fun i hbi =>
    ⟨(fetch_instr_spec sc.execute_cycles Sb Cb hec i hbi).1,
     (fetch_instr_spec sc.execute_cycles Sb Cb hec i hbi).2.1⟩
  obtain ⟨hb4, hle4⟩ := pmeasure_map_le Sb Cb (fetch_instr sc.execute_cycles) hfetchf
    ((execute_phase_pure ml sc.commit_cycles c.cache
      ((c.pipeline.filterMap commit_instr).map
        (fun i => (memory_instr c.cache.hit_latency_cycles sc.commit_cycles i).1))).1) hb3
  obtain ⟨ha1, ha2, ha3, ha4⟩ :=
    admission_spec Sb Cb c.pipeline_width sc.fetch_cycles hfc c.workload
      (((execute_phase_pure ml sc.commit_cycles c.cache
        ((c.pipeline.filterMap commit_instr).map
          (fun i => (memory_instr c.cache.hit_latency_cycles sc.commit_cycles i).1))).1).map
        (fetch_instr sc.execute_cycles)) hb4 hbw
  refine ⟨⟨ha1, ha2⟩, hcfg3, rfl, ?_, ?_⟩
  · show pmeasure Sb Cb (admission_loop c.pipeline_width sc.fetch_cycles
        (((execute_phase_pure ml sc.commit_cycles c.cache
          ((c.pipeline.filterMap commit_instr).map
            (fun i => (memory_instr c.cache.hit_latency_cycles sc.commit_cycles i).1))).1).map
          (fetch_instr sc.execute_cycles)) c.workload).1 +
      (admission_loop c.pipeline_width sc.fetch_cycles
        (((execute_phase_pure ml sc.commit_cycles c.cache
          ((c.pipeline.filterMap commit_instr).map
            (fun i => (memory_instr c.cache.hit_latency_cycles sc.commit_cycles i).1))).1).map
          (fetch_instr sc.execute_cycles)) c.workload).2.length * wweight Sb Cb ≤
      pmeasure Sb Cb c.pipeline + c.workload.length * wweight Sb Cb
    omega
  · intro hbusy hw
    show pmeasure Sb Cb (admission_loop c.pipeline_width sc.fetch_cycles
        (((execute_phase_pure ml sc.commit_cycles c.cache
          ((c.pipeline.filterMap commit_instr).map
            (fun i => (memory_instr c.cache.hit_latency_cycles sc.commit_cycles i).1))).1).map
          (fetch_instr sc.execute_cycles)) c.workload).1 +
      (admission_loop c.pipeline_width sc.fetch_cycles
        (((execute_phase_pure ml sc.commit_cycles c.cache
          ((c.pipeline.filterMap commit_instr).map
            (fun i => (memory_instr c.cache.hit_latency_cycles sc.commit_cycles i).1))).1).map
          (fetch_instr sc.execute_cycles)) c.workload).2.length * wweight Sb Cb <
      pmeasure Sb Cb c.pipeline + c.workload.length * wweight Sb Cb
    have hcore : c.pipeline ≠ [] →
        pmeasure Sb Cb ((((execute_phase_pure ml sc.commit_cycles c.cache
          ((c.pipeline.filterMap commit_instr).map
            (fun i => (memory_instr c.cache.hit_latency_cycles sc.commit_cycles i).1))).1).map
          (fetch_instr sc.execute_cycles))) <
        pmeasure Sb Cb c.pipeline := by
      intro hpne
      obtain ⟨i0, hi0⟩ := List.exists_mem_of_ne_nil c.pipeline hpne
      cases hstage : i0.stage with
      | Commit =>
          have hstrict := commit_phase_lt Sb Cb c.pipeline hbp ⟨i0, hi0, hstage⟩
          exact Nat.lt_of_le_of_lt (Nat.le_trans hle4 (Nat.le_trans hle3 hle2)) hstrict
      | Memory =>
          have hmem1 : i0 ∈ c.pipeline.filterMap commit_instr :=
            List.mem_filterMap.mpr ⟨i0, hi0, commit_instr_of_ne i0 (by simp [hstage])⟩
          have hstrict := pmeasure_map_lt Sb Cb
            (fun i => (memory_instr c.cache.hit_latency_cycles sc.commit_cycles i).1) hmemf
            PipelineStage.Memory
            (fun i hbi hs =>
              (memory_instr_spec c.cache.hit_latency_cycles sc.commit_cycles Sb Cb hhl hcc
                i hbi).2.2.1 hs) (c.pipeline.filterMap commit_instr) hb1 ⟨i0, hmem1, hstage⟩
          exact Nat.lt_of_le_of_lt (Nat.le_trans hle4 hle3)
            (Nat.lt_of_lt_of_le hstrict hle1)
      | Execute =>
          have hmem1 : i0 ∈ c.pipeline.filterMap commit_instr :=
            List.mem_filterMap.mpr ⟨i0, hi0, commit_instr_of_ne i0 (by simp [hstage])⟩
          have hmem2 : i0 ∈ (c.pipeline.filterMap commit_instr).map
              (fun i => (memory_instr c.cache.hit_latency_cycles sc.commit_cycles i).1) :=
            List.mem_map.mpr ⟨i0, hmem1,
              memory_instr_of_ne _ _ i0 (by simp [hstage])⟩
          have hstrict := execute_pure_lt ml sc.commit_cycles Sb Cb hcc hml
            ((c.pipeline.filterMap commit_instr).map
              (fun i => (memory_instr c.cache.hit_latency_cycles sc.commit_cycles i).1))
            c.cache hhl hb2 ⟨i0, hmem2, hstage⟩
          exact Nat.lt_of_le_of_lt hle4
            (Nat.lt_of_lt_of_le hstrict (Nat.le_trans hle2 hle1))
      | Fetch =>
          have hmem1 : i0 ∈ c.pipeline.filterMap commit_instr :=
            List.mem_filterMap.mpr ⟨i0, hi0, commit_instr_of_ne i0 (by simp [hstage])⟩
          have hmem2 : i0 ∈ (c.pipeline.filterMap commit_instr).map
              (fun i => (memory_instr c.cache.hit_latency_cycles sc.commit_cycles i).1) :=
            List.mem_map.mpr ⟨i0, hmem1,
              memory_instr_of_ne _ _ i0 (by simp [hstage])⟩
          have hmem3 : i0 ∈ (execute_phase_pure ml sc.commit_cycles c.cache
              ((c.pipeline.filterMap commit_instr).map
                (fun i => (memory_instr c.cache.hit_latency_cycles sc.commit_cycles i).1))).1 :=
            execute_pure_mem ml sc.commit_cycles _ c.cache i0 hmem2 (by simp [hstage])
          have hstrict := pmeasure_map_lt Sb Cb (fetch_instr sc.execute_cycles) hfetchf
            PipelineStage.Fetch
            (fun i hbi hs => (fetch_instr_spec sc.execute_cycles Sb Cb hec i hbi).2.2.1 hs)
            ((execute_phase_pure ml sc.commit_cycles c.cache
              ((c.pipeline.filterMap commit_instr).map
                (fun i => (memory_instr c.cache.hit_latency_cycles sc.commit_cycles i).1))).1)
            hb3 ⟨i0, hmem3, hstage⟩
          exact Nat.lt_of_lt_of_le hstrict
            (Nat.le_trans hle3 (Nat.le_trans hle2 hle1))
    rcases hbusy with hpne | hwne
    · have := hcore hpne
      omega
    · by_cases hpe : c.pipeline = []
      · have hp4e : (((execute_phase_pure ml sc.commit_cycles c.cache
            ((c.pipeline.filterMap commit_instr).map
              (fun i => (memory_instr c.cache.hit_latency_cycles sc.commit_cycles i).1))).1).map
            (fetch_instr sc.execute_cycles)) = [] := by rw [hpe]; rfl
        have hstrict := ha4 hp4e hwne (by omega)
        have hpm0 : pmeasure Sb Cb c.pipeline = 0 := by rw [hpe]; rfl
        have hpme : pmeasure Sb Cb ([] : List Instruction) = 0 := rfl
        rw [hp4e] at hstrict ⊢
        omega
      · have := hcore hpe
        omega

theorem core_step_drained (sc : StageCycles) (ml : Nat) (c : CoreState)
    (h1 : c.pipeline = []) (h2 : c.workload = []) : core_step sc ml c = c := by
  obtain ⟨cache, pipe, wl, w⟩ := c
  replace h1 : pipe = [] := h1
  replace h2 : wl = [] := h2
  subst h1
  subst h2
  rfl

theorem core_step_terminates_aux (sc : StageCycles) (ml Sb Cb : Nat) :
    ∀ (N : Nat) (c : CoreState), cmeasure Sb Cb c ≤ N →
      cfg_bnd sc ml Sb Cb c → core_bnd Sb Cb c → 1 ≤ c.pipeline_width →
      ∃ n, ((core_step sc ml)^[n] c).pipeline = [] ∧
        ((core_step sc ml)^[n] c).workload = [] := by
  intro N
  induction N with
  | zero =>
      intro c hm hcfg hb hw
      by_cases hp : c.pipeline = []
      · by_cases hwl : c.workload = []
        · exact ⟨0, hp, hwl⟩
        · have := (core_step_spec sc ml Sb Cb c hcfg hb).2.2.2.2 (Or.inr hwl) hw
          omega
      · have := (core_step_spec sc ml Sb Cb c hcfg hb).2.2.2.2 (Or.inl hp) hw
        omega
  | succ N ih =>
      intro c hm hcfg hb hw
      by_cases hp : c.pipeline = []
      · by_cases hwl : c.workload = []
        · exact ⟨0, hp, hwl⟩
        · obtain ⟨hb', hcfg', hwidth', hle', hlt'⟩ := core_step_spec sc ml Sb Cb c hcfg hb
          have hlt := hlt' (Or.inr hwl) hw
          obtain ⟨n, hn1, hn2⟩ := ih (core_step sc ml c) (by omega)
            ⟨hcfg.1, hcfg.2.1, hcfg.2.2.1, hcfg.2.2.2.1, by rw [hcfg']; exact hcfg.2.2.2.2⟩
            hb' (by rw [hwidth']; exact hw)
          exact ⟨n + 1, by rw [Function.iterate_succ_apply]; exact hn1,
            by rw [Function.iterate_succ_apply]; exact hn2⟩
      · obtain ⟨hb', hcfg', hwidth', hle', hlt'⟩ := core_step_spec sc ml Sb Cb c hcfg hb
        have hlt := hlt' (Or.inl hp) hw
        obtain ⟨n, hn1, hn2⟩ := ih (core_step sc ml c) (by omega)
          ⟨hcfg.1, hcfg.2.1, hcfg.2.2.1, hcfg.2.2.2.1, by rw [hcfg']; exact hcfg.2.2.2.2⟩
          hb' (by rw [hwidth']; exact hw)
        exact ⟨n + 1, by rw [Function.iterate_succ_apply]; exact hn1,
          by rw [Function.iterate_succ_apply]; exact hn2⟩

theorem le_foldr_max (l : List Nat) (x : Nat) (hx : x ∈ l) : x ≤ l.foldr max 0 := by
  induction l with
  | nil => simp at hx
  | cons y t ih =>
      rcases List.mem_cons.mp hx with rfl | h
      · exact le_max_left _ _
      · exact Nat.le_trans (ih h) (le_max_right _ _)

theorem core_terminates (sc : StageCycles) (ml : Nat) (c : CoreState)
    (hw : 1 ≤ c.pipeline_width) :
    ∃ n, ((core_step sc ml)^[n] c).pipeline = [] ∧
      ((core_step sc ml)^[n] c).workload = [] := by
  refine core_step_terminates_aux sc ml (max ml (stall_bound c))
    (max (max sc.commit_cycles (max sc.execute_cycles sc.fetch_cycles))
      (max c.cache.config.hit_latency_cycles (scl_bound c)))
    (cmeasure _ _ c) c (Nat.le_refl _) ?_ ?_ hw
  · refine ⟨?_, ?_, ?_, ?_, ?_⟩
    · exact le_max_of_le_left (le_max_left _ _)
    · exact le_max_of_le_left (le_max_of_le_right (le_max_left _ _))
    · exact le_max_of_le_left (le_max_of_le_right (le_max_right _ _))
    · exact le_max_left _ _
    · exact le_max_of_le_right (le_max_left _ _)
  · constructor
    · intro i hi
      constructor
      · refine le_max_of_le_right ?_
        exact le_foldr_max _ _ (List.mem_map.mpr ⟨i, List.mem_append.mpr (Or.inl hi), rfl⟩)
      · refine le_max_of_le_right (le_max_of_le_right ?_)
        exact le_foldr_max _ _ (List.mem_map.mpr ⟨i, hi, rfl⟩)
    · intro i hi
      refine le_max_of_le_right ?_
      exact le_foldr_max _ _ (List.mem_map.mpr ⟨i, List.mem_append.mpr (Or.inr hi), rfl⟩)

theorem drained_persists (F : CoreState → CoreState)
    (hfix : ∀ c, c.pipeline = [] → c.workload = [] → F c = c)
    (c : CoreState) (k m : Nat)
    (h : (F^[k] c).pipeline = [] ∧ (F^[k] c).workload = []) :
    (F^[k + m] c).pipeline = [] ∧ (F^[k + m] c).workload = [] := by
  have heq : F^[k + m] c = F^[m] (F^[k] c) := by
    rw [Nat.add_comm, Function.iterate_add_apply]
  rw [heq, Function.iterate_fixed (hfix _ h.1 h.2)]
  exact h

theorem exists_uniform_drain (F : CoreState → CoreState)
    (hfix : ∀ c, c.pipeline = [] → c.workload = [] → F c = c) :
    ∀ (cs : List CoreState),
      (∀ c ∈ cs, ∃ n, (F^[n] c).pipeline = [] ∧ (F^[n] c).workload = []) →
      ∃ N, ∀ c ∈ cs, (F^[N] c).pipeline = [] ∧ (F^[N] c).workload = [] := by
  intro cs
  induction cs with
  | nil => intro _; exact ⟨0, by simp⟩
  | cons c rest ih =>
      intro h
      obtain ⟨n, hn⟩ := h c (List.mem_cons_self c rest)
      obtain ⟨N, hN⟩ := ih (fun d hd => h d (List.mem_cons_of_mem c hd))
      refine ⟨max n N, ?_⟩
      intro d hd
      rcases List.mem_cons.mp hd with rfl | hd
      · have : max n N = n + (max n N - n) := by omega
        rw [this]
        exact drained_persists F hfix d n _ hn
      · have : max n N = N + (max n N - N) := by omega
        rw [this]
        exact drained_persists F hfix d N _ (hN d hd)

theorem busy_false_iff (s : Simulator) :
    s.busy = false ↔ ∀ c ∈ s.cores, c.workload = [] ∧ c.pipeline = [] := by
  unfold Simulator.busy CoreState.busy
  simp [List.any_eq_false, List.isEmpty_iff]

theorem step_stage_cycles (s : Simulator) : s.step.stage_cycles = s.stage_cycles := rfl

theorem step_memory_field (s : Simulator) : s.step.memory = s.memory := rfl

theorem step_iterate_cores (n : Nat) (s : Simulator) :
    (Simulator.step^[n] s).cores =
      s.cores.map ((core_step s.stage_cycles s.memory.access_latency_cycles)^[n]) := by
  induction n generalizing s with
  | zero => simp
  | succ n ih =>
      rw [Function.iterate_succ_apply, ih s.step, step_stage_cycles, step_memory_field,
        step_cores_eq s, List.map_map, ← Function.iterate_succ]

theorem run_of_iterate_not_busy :
    ∀ (N : Nat) (s : Simulator), (Simulator.step^[N] s).busy = false →
      ∃ s', Simulator.run_to_completion N s = some s' ∧ s'.busy = false := by
  intro N
  induction N with
  | zero =>
      intro s h
      replace h : s.busy = false := h
      exact ⟨s, by simp [Simulator.run_to_completion, h], h⟩
  | succ N ih =>
      intro s h
      by_cases hb : s.busy
      · obtain ⟨s', h1, h2⟩ := ih s.step (by rw [← Function.iterate_succ_apply]; exact h)
        exact ⟨s', by simp [Simulator.run_to_completion, hb, h1], h2⟩
      · replace hb : s.busy = false := by simpa using hb
        exact ⟨s, by simp [Simulator.run_to_completion, hb], hb⟩

/-- C2 (amended): for every engine state whose cores all have pipeline width at
least one (the claim fails for width zero, see the counterexample) and any
finite loaded workload, `run_to_completion` terminates, and on termination
every core's pending queue and in-flight pipeline are empty; an engine that is
already idle (in particular one loaded with an empty workload) returns after
zero steps for any fuel. -/
theorem run_to_completion_drains (s : Simulator)
    (hwidth : ∀ c ∈ s.cores, 1 ≤ c.pipeline_width) :
    (∃ fuel s', Simulator.run_to_completion fuel s = some s' ∧
      ∀ c ∈ s'.cores, c.workload = [] ∧ c.pipeline = []) ∧
    (s.busy = false → ∀ fuel, Simulator.run_to_completion fuel s = some s) := by
  constructor
  · have hterm : ∀ c ∈ s.cores,
        ∃ n, ((core_step s.stage_cycles s.memory.access_latency_cycles)^[n] c).pipeline = [] ∧
          ((core_step s.stage_cycles s.memory.access_latency_cycles)^[n] c).workload = [] :=
      fun c hc => core_terminates s.stage_cycles s.memory.access_latency_cycles c (hwidth c hc)
    obtain ⟨N, hN⟩ := exists_uniform_drain _
      (core_step_drained s.stage_cycles s.memory.access_latency_cycles) s.cores hterm
    have hnb : (Simulator.step^[N] s).busy = false := by
      rw [busy_false_iff]
      intro c hc
      rw [step_iterate_cores] at hc
      obtain ⟨c0, hc0, rfl⟩ := List.mem_map.mp hc
      exact ⟨(hN c0 hc0).2, (hN c0 hc0).1⟩
    obtain ⟨s', h1, h2⟩ := run_of_iterate_not_busy N s hnb
    exact ⟨N, s', h1, (busy_false_iff s').mp h2⟩
  · intro hnb fuel
    cases fuel <;> simp [Simulator.run_to_completion, hnb]

/-- C2 witness: the amended theorem applied to the concrete two-instruction
engine (width 2). -/
theorem run_to_completion_drains_witness :
    (∀ c ∈ (simW.load_workload workW).cores, 1 ≤ c.pipeline_width) ∧
    (∃ fuel s', Simulator.run_to_completion fuel (simW.load_workload workW) = some s' ∧
      ∀ c ∈ s'.cores, c.workload = [] ∧ c.pipeline = []) :=
  ⟨by decide, (run_to_completion_drains (simW.load_workload workW) (by decide)).1⟩

/-- C2 (counterexample to the claim as stated): a legally constructed engine
with pipeline width 0 and a one-instruction workload never drains —
`run_to_completion` (here fuelled) never returns, for any amount of fuel.  The
first conjunct certifies that the engine comes from `Simulator::new`. -/
theorem run_to_completion_diverges_width_zero :
    Simulator.new 1 1 cfg3 ⟨2⟩ 0 = some simW0 ∧
    ¬ ∃ fuel s', Simulator.run_to_completion fuel
        (simW0.load_workload [[Instruction.new_compute 0]]) = some s' := by
  refine ⟨rfl, ?_⟩
  have hfix : ∀ c ∈ (simW0.load_workload [[Instruction.new_compute 0]]).cores,
      core_step (simW0.load_workload [[Instruction.new_compute 0]]).stage_cycles
        (simW0.load_workload [[Instruction.new_compute 0]]).memory.access_latency_cycles c =
        c := by
    decide
  have hiter : ∀ n, (Simulator.step^[n] (simW0.load_workload [[Instruction.new_compute 0]])).cores =
      (simW0.load_workload [[Instruction.new_compute 0]]).cores := by
    intro n
    rw [step_iterate_cores]
    rw [List.map_congr_left (fun c hc => Function.iterate_fixed (hfix c hc) n)]
    exact List.map_id _
  have hbusy : ∀ n,
      (Simulator.step^[n] (simW0.load_workload [[Instruction.new_compute 0]])).busy = true := by
    intro n
    unfold Simulator.busy
    rw [hiter n]
    decide
  have hrun : ∀ (fuel : Nat) (s1 : Simulator), (∀ n, (Simulator.step^[n] s1).busy = true) →
      Simulator.run_to_completion fuel s1 = none := by
    intro fuel
    induction fuel with
    | zero =>
        intro s1 h
        have hb : s1.busy = true := h 0
        simp [Simulator.run_to_completion, hb]
    | succ fuel ih =>
        intro s1 h
        have hb : s1.busy = true := h 0
        simp only [Simulator.run_to_completion, hb, if_true]
        exact ih s1.step (fun n => by rw [← Function.iterate_succ_apply]; exact h (n + 1))
  rintro ⟨fuel, s', hs'⟩
  rw [hrun fuel _ hbusy] at hs'
  exact Option.noConfusion hs'

/-! ### Claim C3: in-order retirement

Admission is FIFO — each step moves exactly the first
`min (width - pipeline length) (queue length)` pending instructions, in order,
into the pipeline — but retirement is *not* in issue order: a later compute
instruction commits in a fixed three-cycle path while an earlier missing load
sits stalled in the Memory stage, as the concrete trace below shows. -/

/-- C3 (amended): the admission substage is FIFO and skips nothing — it
appends exactly the first `min (width - |pipeline|) |queue|` pending
instructions to the pipeline, in issue order and set to the Fetch stage, and
leaves exactly the remaining suffix pending.  (Retirement order, by contrast,
is refuted by `retire_out_of_order_counterexample`.) -/
theorem admission_loop_take_drop (width fc : Nat) :
    ∀ (wl pipe : List Instruction),
      admission_loop width fc pipe wl =
        (pipe ++ (wl.take (min (width - pipe.length) wl.length)).map
            (fun i => { i with stage := PipelineStage.Fetch, stage_cycles_left := fc }),
         wl.drop (min (width - pipe.length) wl.length)) := by
  intro wl
  induction wl with
  | nil =>
      intro pipe
      simp [admission_loop]
  | cons i rest ih =>
      intro pipe
      by_cases hlt : pipe.length < width
      · have hred : admission_loop width fc pipe (i :: rest) =
            admission_loop width fc
              (pipe ++ [{ i with stage := PipelineStage.Fetch, stage_cycles_left := fc }])
              rest := by
          simp [admission_loop, hlt]
        rw [hred, ih]
        have hlen : (pipe ++
            [{ i with stage := PipelineStage.Fetch, stage_cycles_left := fc }]).length =
            pipe.length + 1 := by simp
        rw [hlen]
        have hmin : min (width - pipe.length) ((i :: rest).length) =
            min (width - (pipe.length + 1)) rest.length + 1 := by
          simp only [List.length_cons]
          omega
        rw [hmin]
        rw [List.take_succ_cons, List.drop_succ_cons, List.map_cons, List.append_cons]
        simp [List.append_assoc]
      · have hred : admission_loop width fc pipe (i :: rest) = (pipe, i :: rest) := by
          simp [admission_loop, hlt]
        have hz : width - pipe.length = 0 := Nat.sub_eq_zero_of_le (Nat.le_of_not_lt hlt)
        rw [hred, hz]
        simp

/-- C3 (counterexample to the claim as stated): in the concrete width-2 engine
with workload [load @0 (issue 0), compute (issue 1)] on one thread, after 7
steps the compute issued at cycle 1 has retired (it is in neither the pending
queue nor the pipeline) while the earlier-issued load (issue 0) is still in
the pipeline, stalled on its miss — retirement is not in issue order. -/
theorem retire_out_of_order_counterexample :
    Simulator.new 1 1 cfg3 ⟨2⟩ 2 = some simW ∧
    workW = [[Instruction.new_memory InstructionKind.Load 0 0, Instruction.new_compute 1]] ∧
    (Simulator.step^[7] (simW.load_workload workW)).cores.map
      (fun c => (c.workload.map (fun i => i.issue_cycle),
                 c.pipeline.map (fun i => i.issue_cycle))) = [([], [0])] := by
  refine ⟨rfl, rfl, ?_⟩
  decide

/-! ### Exact model of IEEE-754 binary64 arithmetic (`f64`) over ℚ

`metrics.rs` computes hit/miss rates and the slowdown in `f64`.  The model
represents every `f64` value by its exact rational value and every operation
by "compute exactly in ℚ, then round to the nearest 53-bit significand value,
ties to even" — which is precisely IEEE-754 binary64 with round-to-nearest.
The exponent is unbounded in the model; this is faithful on the whole domain
reachable here, since all intermediate magnitudes lie far inside the binary64
normal range (between `2 ^ -128` and `2 ^ 70`, say), so no overflow,
underflow or subnormal rounding can occur. -/

theorem lg2Go_spec : ∀ (f n : Nat), n ≤ f → 1 ≤ n →
    2 ^ lg2Go f n ≤ n ∧ n < 2 ^ (lg2Go f n + 1) := by
  intro f
  induction f with
  | zero =>
      intro n hf h1
      omega
  | succ f ih =>
      intro n hf h1
      obtain ⟨m, rfl⟩ : ∃ m, n = m + 1 := ⟨n - 1, by omega⟩
      by_cases h2 : m + 1 ≥ 2
      · have hred : lg2Go (f + 1) (m + 1) = lg2Go f ((m + 1) / 2) + 1 := by
          simp [lg2Go, h2]
        have hhalf1 : 1 ≤ (m + 1) / 2 := by omega
        have hhalff : (m + 1) / 2 ≤ f := by omega
        obtain ⟨hl, hr⟩ := ih ((m + 1) / 2) hhalff hhalf1
        rw [hred]
        constructor
        · have : 2 ^ (lg2Go f ((m + 1) / 2) + 1) = 2 * 2 ^ lg2Go f ((m + 1) / 2) := by ring
          omega
        · have e1 : 2 ^ (lg2Go f ((m + 1) / 2) + 1 + 1) =
              2 * 2 ^ (lg2Go f ((m + 1) / 2) + 1) := by ring
          omega
      · have hm : m = 0 := by omega
        subst hm
        simp [lg2Go]

theorem lg2_spec (n : Nat) (h : 1 ≤ n) : 2 ^ lg2 n ≤ n ∧ n < 2 ^ (lg2 n + 1) :=
  lg2Go_spec n n (Nat.le_refl n) h

theorem rexp_spec (q : ℚ) (hq : 0 < q) : 2 ^ rexp q ≤ q ∧ q < 2 ^ (rexp q + 1) := by
  have hnum : 0 < q.num := Rat.num_pos.mpr hq
  have ha1 : 1 ≤ q.num.toNat := by omega
  have hb1 : 1 ≤ q.den := q.pos
  obtain ⟨hal, har⟩ := lg2_spec q.num.toNat ha1
  obtain ⟨hbl, hbr⟩ := lg2_spec q.den hb1
  have hbq : (0 : ℚ) < (q.den : ℚ) := by positivity
  have hqn : ((q.num.toNat : ℚ)) = ((q.num : ℤ) : ℚ) := by
    rw [← Int.cast_natCast, Int.toNat_of_nonneg hnum.le]
  have hqeq : q = (q.num.toNat : ℚ) / (q.den : ℚ) := by
    rw [hqn, Rat.num_div_den]
  set la := lg2 q.num.toNat with hla_def
  set lb := lg2 q.den with hlb_def
  have hal' : (2 : ℚ) ^ ((la : ℤ)) ≤ (q.num.toNat : ℚ) := by
    rw [zpow_natCast]
    exact_mod_cast hal
  have har' : ((q.num.toNat : ℚ)) < 2 ^ ((la : ℤ) + 1) := by
    rw [show ((la : ℤ) + 1) = ((la + 1 : ℕ) : ℤ) from by push_cast; ring, zpow_natCast]
    exact_mod_cast har
  have hbl' : (2 : ℚ) ^ ((lb : ℤ)) ≤ (q.den : ℚ) := by
    rw [zpow_natCast]
    exact_mod_cast hbl
  have hbr' : ((q.den : ℚ)) < 2 ^ ((lb : ℤ) + 1) := by
    rw [show ((lb : ℤ) + 1) = ((lb + 1 : ℕ) : ℤ) from by push_cast; ring, zpow_natCast]
    exact_mod_cast hbr
  -- q < 2 ^ (la - lb + 1)
  have hupper : q < 2 ^ ((la : ℤ) - (lb : ℤ) + 1) := by
    rw [hqeq, div_lt_iff₀ hbq]
    calc ((q.num.toNat : ℚ)) < 2 ^ ((la : ℤ) + 1) := har'
      _ = 2 ^ ((la : ℤ) - (lb : ℤ) + 1) * 2 ^ ((lb : ℤ)) := by
          rw [← zpow_add₀ (by norm_num : (2 : ℚ) ≠ 0)]
          congr 1
          ring
      _ ≤ 2 ^ ((la : ℤ) - (lb : ℤ) + 1) * (q.den : ℚ) := by
          apply mul_le_mul_of_nonneg_left hbl'
          positivity
  -- 2 ^ (la - lb - 1) < q
  have hlower : (2 : ℚ) ^ ((la : ℤ) - (lb : ℤ) - 1) < q := by
    rw [hqeq, lt_div_iff₀ hbq]
    calc (2 : ℚ) ^ ((la : ℤ) - (lb : ℤ) - 1) * (q.den : ℚ)
        < 2 ^ ((la : ℤ) - (lb : ℤ) - 1) * 2 ^ ((lb : ℤ) + 1) := by
          apply mul_lt_mul_of_pos_left hbr'
          positivity
      _ = 2 ^ ((la : ℤ)) := by
          rw [← zpow_add₀ (by norm_num : (2 : ℚ) ≠ 0)]
          congr 1
          ring
      _ ≤ (q.num.toNat : ℚ) := hal'
  unfold rexp
  rw [← hla_def, ← hlb_def]
  by_cases hcase : q < 2 ^ ((la : ℤ) - (lb : ℤ))
  · rw [if_pos hcase]
    refine ⟨le_of_lt ?_, ?_⟩
    · have : ((la : ℤ) - (lb : ℤ) - 1) = ((la : ℤ) - (lb : ℤ)) - 1 := by ring
      simpa [this] using hlower
    · simpa using hcase
  · rw [if_neg hcase]
    exact ⟨le_of_not_lt hcase, hupper⟩

theorem rhe_spec (x : ℚ) : |(rhe x : ℚ) - x| ≤ 1 / 2 := by
  have hfl : (⌊x⌋ : ℚ) ≤ x := Int.floor_le x
  have hfu : x < ⌊x⌋ + 1 := Int.lt_floor_add_one x
  unfold rhe
  by_cases h1 : x - (⌊x⌋ : ℚ) < 1 / 2
  · rw [if_pos h1]
    rw [abs_le]
    constructor <;> linarith
  · rw [if_neg h1]
    by_cases h2 : (1 : ℚ) / 2 < x - (⌊x⌋ : ℚ)
    · rw [if_pos h2]
      rw [abs_le]
      push_cast
      constructor <;> linarith
    · rw [if_neg h2]
      have heq : x - (⌊x⌋ : ℚ) = 1 / 2 := by linarith
      by_cases h3 : Even ⌊x⌋
      · rw [if_pos h3, abs_le]
        constructor <;> linarith
      · rw [if_neg h3, abs_le]
        push_cast
        constructor <;> linarith

/-- Correct rounding is accurate to half an ulp, hence to a relative error of
`2 ^ (-53)`. -/
theorem fl_error (q : ℚ) (hq : 0 < q) : |fl q - q| ≤ q * (1 / 2 ^ 53) := by
  obtain ⟨hel, heu⟩ := rexp_spec q hq
  unfold fl
  rw [if_pos hq]
  have hx := rhe_spec (q * 2 ^ ((52 : ℤ) - rexp q))
  have hpow : (0 : ℚ) < 2 ^ (rexp q - 52) := by positivity
  have hkey : fl q - q = ((rhe (q * 2 ^ ((52 : ℤ) - rexp q)) : ℚ) -
      q * 2 ^ ((52 : ℤ) - rexp q)) * 2 ^ (rexp q - 52) := by
    unfold fl
    rw [if_pos hq]
    have : q * 2 ^ ((52 : ℤ) - rexp q) * 2 ^ (rexp q - 52) = q := by
      rw [mul_assoc, ← zpow_add₀ (by norm_num : (2 : ℚ) ≠ 0)]
      simp
    rw [sub_mul, this]
  rw [show (rhe (q * 2 ^ ((52 : ℤ) - rexp q)) : ℚ) * 2 ^ (rexp q - 52) - q =
      fl q - q from by rw [fl, if_pos hq], hkey]
  rw [abs_mul, abs_of_pos hpow]
  calc |(rhe (q * 2 ^ ((52 : ℤ) - rexp q)) : ℚ) - q * 2 ^ ((52 : ℤ) - rexp q)| *
        2 ^ (rexp q - 52)
      ≤ 1 / 2 * 2 ^ (rexp q - 52) := by
        apply mul_le_mul_of_nonneg_right hx
        positivity
    _ = 2 ^ (rexp q - 53) := by
        rw [show (rexp q - 53) = (rexp q - 52) + (-1) from by ring,
          zpow_add₀ (by norm_num : (2 : ℚ) ≠ 0)]
        norm_num
        ring
    _ ≤ q * (1 / 2 ^ 53) := by
        have : (2 : ℚ) ^ (rexp q - 53) = 2 ^ rexp q * (1 / 2 ^ 53) := by
          rw [show (rexp q - 53) = rexp q + (-53) from by ring,
            zpow_add₀ (by norm_num : (2 : ℚ) ≠ 0)]
          norm_num
        rw [this]
        apply mul_le_mul_of_nonneg_right hel
        positivity

theorem fl_bounds (q : ℚ) (hq : 0 < q) :
    q * (1 - 1 / 2 ^ 53) ≤ fl q ∧ fl q ≤ q * (1 + 1 / 2 ^ 53) := by
  have h := fl_error q hq
  rw [abs_le] at h
  constructor <;> nlinarith [h.1, h.2]

theorem fl_pos (q : ℚ) (hq : 0 < q) : 0 < fl q := by
  have h := (fl_bounds q hq).1
  nlinarith

theorem fl_zero : fl 0 = 0 := by
  unfold fl
  norm_num

/-! ### The `f64` metrics queries (`metrics.rs`) -/

/-! ### Evaluation lemmas for the rounding model -/

theorem rexp_eq_of (q : ℚ) (e : ℤ) (h0 : 0 < q) (hle : 2 ^ e ≤ q)
    (hlt : q < 2 ^ (e + 1)) : rexp q = e := by
  obtain ⟨hl, hr⟩ := rexp_spec q h0
  by_contra hne
  rcases lt_or_gt_of_ne hne with h | h
  · have h1 : rexp q + 1 ≤ e := by omega
    have h2 : (2 : ℚ) ^ (rexp q + 1) ≤ 2 ^ e := by
      apply zpow_le_zpow_right₀ (by norm_num) h1
    linarith
  · have h1 : e + 1 ≤ rexp q := by omega
    have h2 : (2 : ℚ) ^ (e + 1) ≤ 2 ^ rexp q := by
      apply zpow_le_zpow_right₀ (by norm_num) h1
    linarith

theorem rhe_eq_of_lt (x : ℚ) (n : ℤ) (hf : ⌊x⌋ = n) (hr : x - n < 1 / 2) :
    rhe x = n := by
  unfold rhe
  rw [hf, if_pos hr]

theorem rhe_eq_of_gt (x : ℚ) (n : ℤ) (hf : ⌊x⌋ = n) (hr : 1 / 2 < x - n) :
    rhe x = n + 1 := by
  unfold rhe
  rw [hf, if_neg (by linarith), if_pos hr]

theorem rhe_eq_of_tie_odd (x : ℚ) (n : ℤ) (hf : ⌊x⌋ = n) (hr : x - n = 1 / 2)
    (ho : ¬ Even n) : rhe x = n + 1 := by
  unfold rhe
  rw [hf, if_neg (by simp [hr]), if_neg (by simp [hr]), if_neg ho]

theorem fl_eq_of (q : ℚ) (e n : ℤ) (h0 : 0 < q) (he : rexp q = e)
    (hn : rhe (q * 2 ^ ((52 : ℤ) - e)) = n) : fl q = n * 2 ^ (e - 52) := by
  unfold fl
  rw [if_pos h0, he, hn]

theorem fl_one : fl 1 = 1 := by
  have he : rexp 1 = 0 := rexp_eq_of 1 0 (by norm_num) (by norm_num) (by norm_num)
  have hx : (1 : ℚ) * 2 ^ ((52 : ℤ) - 0) = 2 ^ 52 := by norm_num
  have hfl : ⌊(2 : ℚ) ^ 52⌋ = 2 ^ 52 := by
    rw [Int.floor_eq_iff]
    norm_num
  have hn : rhe ((1 : ℚ) * 2 ^ ((52 : ℤ) - 0)) = 2 ^ 52 := by
    rw [hx]
    exact rhe_eq_of_lt _ _ hfl (by norm_num)
  rw [fl_eq_of 1 0 (2 ^ 52) (by norm_num) he hn]
  norm_num

/-- Relative-error transfer for one rounded division: if `a` and `c` are the
roundings of `A` and `T` and `r` is a rounding of `a / c`, then `T * r` lies
within relative error `4 * 2 ^ -53` of `A`. -/
theorem div_round_bounds (A T a c r : ℚ) (hA : 0 < A) (hT : 0 < T)
    (ha1 : A * (1 - 1 / 2 ^ 53) ≤ a) (ha2 : a ≤ A * (1 + 1 / 2 ^ 53))
    (hc1 : T * (1 - 1 / 2 ^ 53) ≤ c) (hc2 : c ≤ T * (1 + 1 / 2 ^ 53)) (hc0 : 0 < c)
    (hr1 : a / c * (1 - 1 / 2 ^ 53) ≤ r) (hr2 : r ≤ a / c * (1 + 1 / 2 ^ 53)) :
    A * (1 - 4 / 2 ^ 53) ≤ T * r ∧ T * r ≤ A * (1 + 4 / 2 ^ 53) := by
  have ha0 : 0 < a := lt_of_lt_of_le (by nlinarith) ha1
  have hx0 : 0 < a / c := div_pos ha0 hc0
  have hx : a / c * c = a := div_mul_cancel₀ a (ne_of_gt hc0)
  constructor
  · have g1 : T * (a / c * (1 - 1 / 2 ^ 53)) ≤ T * r := mul_le_mul_of_nonneg_left hr1 hT.le
    have g2 : a / c * c ≤ a / c * (T * (1 + 1 / 2 ^ 53)) := mul_le_mul_of_nonneg_left hc2 hx0.le
    have g3 : A * (1 - 1 / 2 ^ 53) ≤ a / c * (T * (1 + 1 / 2 ^ 53)) := by
      rw [hx] at g2
      exact le_trans ha1 g2
    have g4a := mul_le_mul_of_nonneg_right g3 (show (0 : ℚ) ≤ 1 - 1 / 2 ^ 53 by norm_num)
    have g4b := mul_le_mul_of_nonneg_right g1 (show (0 : ℚ) ≤ 1 + 1 / 2 ^ 53 by norm_num)
    have g4 : A * (1 - 1 / 2 ^ 53) * (1 - 1 / 2 ^ 53) ≤ T * r * (1 + 1 / 2 ^ 53) := by
      calc A * (1 - 1 / 2 ^ 53) * (1 - 1 / 2 ^ 53)
          ≤ a / c * (T * (1 + 1 / 2 ^ 53)) * (1 - 1 / 2 ^ 53) := g4a
        _ = T * (a / c * (1 - 1 / 2 ^ 53)) * (1 + 1 / 2 ^ 53) := by ring
        _ ≤ T * r * (1 + 1 / 2 ^ 53) := g4b
    have g5 : A * (1 - 4 / 2 ^ 53) * (1 + 1 / 2 ^ 53) ≤
        A * (1 - 1 / 2 ^ 53) * (1 - 1 / 2 ^ 53) := by nlinarith [hA.le]
    exact le_of_mul_le_mul_right (by linarith) (show (0 : ℚ) < 1 + 1 / 2 ^ 53 by norm_num)
  · have h1 : T * r ≤ T * (a / c * (1 + 1 / 2 ^ 53)) := mul_le_mul_of_nonneg_left hr2 hT.le
    have h2 : a / c * (T * (1 - 1 / 2 ^ 53)) ≤ a / c * c := mul_le_mul_of_nonneg_left hc1 hx0.le
    have h3 : a / c * (T * (1 - 1 / 2 ^ 53)) ≤ A * (1 + 1 / 2 ^ 53) := by
      rw [hx] at h2
      exact le_trans h2 ha2
    have h4a := mul_le_mul_of_nonneg_right h1 (show (0 : ℚ) ≤ 1 - 1 / 2 ^ 53 by norm_num)
    have h4b := mul_le_mul_of_nonneg_right h3 (show (0 : ℚ) ≤ 1 + 1 / 2 ^ 53 by norm_num)
    have h4 : T * r * (1 - 1 / 2 ^ 53) ≤ A * (1 + 1 / 2 ^ 53) * (1 + 1 / 2 ^ 53) := by
      calc T * r * (1 - 1 / 2 ^ 53)
          ≤ T * (a / c * (1 + 1 / 2 ^ 53)) * (1 - 1 / 2 ^ 53) := h4a
        _ = a / c * (T * (1 - 1 / 2 ^ 53)) * (1 + 1 / 2 ^ 53) := by ring
        _ ≤ A * (1 + 1 / 2 ^ 53) * (1 + 1 / 2 ^ 53) := h4b
    have h5 : A * (1 + 1 / 2 ^ 53) * (1 + 1 / 2 ^ 53) ≤
        A * (1 + 4 / 2 ^ 53) * (1 - 1 / 2 ^ 53) := by nlinarith [hA.le]
    exact le_of_mul_le_mul_right (by linarith) (show (0 : ℚ) < 1 - 1 / 2 ^ 53 by norm_num)

/-- C8: with no accesses the rates are exactly 1 and 0; with a nonzero access
total the hit and miss rates sum to 1 only up to the rounding error of the two
`f64` divisions, bounded by `2 ^ -51`. -/
theorem hit_rate_add_miss_rate_close_to_one (m : Metrics) :
    (m.cache_hits + m.cache_misses = 0 → m.hit_rate = 1 ∧ m.miss_rate = 0) ∧
    (m.cache_hits + m.cache_misses ≠ 0 →
      |m.hit_rate + m.miss_rate - 1| ≤ 1 / 2 ^ 51) := by
  constructor
  · intro h
    simp [Metrics.hit_rate, Metrics.miss_rate, h]
  · intro h
    have hh : m.hit_rate =
        fl (fl (m.cache_hits : ℚ) / fl ((m.cache_hits + m.cache_misses : Nat) : ℚ)) := by
      simp only [Metrics.hit_rate, if_neg h]
    have hm : m.miss_rate =
        fl (fl (m.cache_misses : ℚ) / fl ((m.cache_hits + m.cache_misses : Nat) : ℚ)) := by
      simp only [Metrics.miss_rate, if_neg h]
    set T : ℚ := ((m.cache_hits + m.cache_misses : Nat) : ℚ) with hT_def
    have hTpos : 0 < T := by
      rw [hT_def]
      exact_mod_cast Nat.pos_of_ne_zero h
    have hHM : T = (m.cache_hits : ℚ) + (m.cache_misses : ℚ) := by
      rw [hT_def]
      push_cast
      ring
    by_cases hh0 : m.cache_hits = 0
    · have e1 : m.hit_rate = 0 := by
        rw [hh, hh0]
        simp [fl_zero]
      have e2 : m.miss_rate = 1 := by
        have hMT : ((m.cache_misses : ℚ)) = T := by
          rw [hHM, hh0]
          norm_num
        rw [hm, hMT, div_self (ne_of_gt (fl_pos T hTpos)), fl_one]
      rw [e1, e2]
      norm_num
    · by_cases hm0 : m.cache_misses = 0
      · have e1 : m.hit_rate = 1 := by
          have hHT : ((m.cache_hits : ℚ)) = T := by
            rw [hHM, hm0]
            norm_num
          rw [hh, hHT, div_self (ne_of_gt (fl_pos T hTpos)), fl_one]
        have e2 : m.miss_rate = 0 := by
          rw [hm, hm0]
          simp [fl_zero]
        rw [e1, e2]
        norm_num
      · have hHpos : (0 : ℚ) < (m.cache_hits : ℚ) := by
          exact_mod_cast Nat.pos_of_ne_zero hh0
        have hMpos : (0 : ℚ) < (m.cache_misses : ℚ) := by
          exact_mod_cast Nat.pos_of_ne_zero hm0
        obtain ⟨hfH1, hfH2⟩ := fl_bounds (m.cache_hits : ℚ) hHpos
        obtain ⟨hfM1, hfM2⟩ := fl_bounds (m.cache_misses : ℚ) hMpos
        obtain ⟨hfT1, hfT2⟩ := fl_bounds T hTpos
        have hfTpos : 0 < fl T := fl_pos T hTpos
        have hq1pos : 0 < fl (m.cache_hits : ℚ) / fl T :=
          div_pos (fl_pos _ hHpos) hfTpos
        obtain ⟨hr11, hr12⟩ := fl_bounds _ hq1pos
        have hq2pos : 0 < fl (m.cache_misses : ℚ) / fl T :=
          div_pos (fl_pos _ hMpos) hfTpos
        obtain ⟨hr21, hr22⟩ := fl_bounds _ hq2pos
        obtain ⟨hb11, hb12⟩ := div_round_bounds (m.cache_hits : ℚ) T
          (fl (m.cache_hits : ℚ)) (fl T) (fl (fl (m.cache_hits : ℚ) / fl T))
          hHpos hTpos hfH1 hfH2 hfT1 hfT2 hfTpos hr11 hr12
        obtain ⟨hb21, hb22⟩ := div_round_bounds (m.cache_misses : ℚ) T
          (fl (m.cache_misses : ℚ)) (fl T) (fl (fl (m.cache_misses : ℚ) / fl T))
          hMpos hTpos hfM1 hfM2 hfT1 hfT2 hfTpos hr21 hr22
        set r1 : ℚ := fl (fl (m.cache_hits : ℚ) / fl T) with hr1_def
        set r2 : ℚ := fl (fl (m.cache_misses : ℚ) / fl T) with hr2_def
        have hlow : T * (1 - 4 / 2 ^ 53) ≤ T * (r1 + r2) := by
          calc T * (1 - 4 / 2 ^ 53)
              = (m.cache_hits : ℚ) * (1 - 4 / 2 ^ 53) +
                (m.cache_misses : ℚ) * (1 - 4 / 2 ^ 53) := by
                rw [hHM]
                ring
            _ ≤ T * r1 + T * r2 := add_le_add hb11 hb21
            _ = T * (r1 + r2) := by ring
        have hup : T * (r1 + r2) ≤ T * (1 + 4 / 2 ^ 53) := by
          calc T * (r1 + r2) = T * r1 + T * r2 := by ring
            _ ≤ (m.cache_hits : ℚ) * (1 + 4 / 2 ^ 53) +
                (m.cache_misses : ℚ) * (1 + 4 / 2 ^ 53) := add_le_add hb12 hb22
            _ = T * (1 + 4 / 2 ^ 53) := by
                rw [hHM]
                ring
        have hl2 : 1 - 4 / 2 ^ 53 ≤ r1 + r2 := le_of_mul_le_mul_left hlow hTpos
        have hu2 : r1 + r2 ≤ 1 + 4 / 2 ^ 53 := le_of_mul_le_mul_left hup hTpos
        rw [hh, hm, abs_le]
        constructor
        · linarith
        · linarith

/-- C8 witness: a two-hits-one-miss metrics state (the Rust unit test's data)
has a nonzero total and rates summing to 1 within the bound. -/
theorem hit_rate_add_miss_rate_close_to_one_witness :
    mTest.cache_hits + mTest.cache_misses ≠ 0 ∧
    |mTest.hit_rate + mTest.miss_rate - 1| ≤ 1 / 2 ^ 51 :=
  ⟨by decide, (hit_rate_add_miss_rate_close_to_one mTest).2 (by decide)⟩

/-- C8 counterexample: with 1 hit and `2 ^ 53 + 2` misses the total is
nonzero, yet the hit and miss rates do not sum to exactly 1 — neither as exact
values nor after one further `f64` addition. -/
theorem hit_rate_add_miss_rate_not_exactly_one :
    mBig.cache_hits + mBig.cache_misses ≠ 0 ∧
    mBig.hit_rate + mBig.miss_rate ≠ 1 ∧
    fl (mBig.hit_rate + mBig.miss_rate) ≠ 1 := by
  have hh : mBig.hit_rate = fl (fl (1 : ℚ) / fl (9007199254740995 : ℚ)) := by
    simp only [Metrics.hit_rate, mBig, Metrics.new]
    norm_num
  have hm : mBig.miss_rate =
      fl (fl (9007199254740994 : ℚ) / fl (9007199254740995 : ℚ)) := by
    simp only [Metrics.miss_rate, mBig, Metrics.new]
    norm_num
  have hfT : fl (9007199254740995 : ℚ) = 9007199254740996 := by
    have he : rexp (9007199254740995 : ℚ) = 53 :=
      rexp_eq_of _ 53 (by norm_num) (by norm_num) (by norm_num)
    have hfl : ⌊(9007199254740995 : ℚ) * 2 ^ ((52 : ℤ) - 53)⌋ = 4503599627370497 := by
      rw [Int.floor_eq_iff]
      norm_num
    have hn : rhe ((9007199254740995 : ℚ) * 2 ^ ((52 : ℤ) - 53)) = 4503599627370498 := by
      rw [rhe_eq_of_tie_odd _ 4503599627370497 hfl (by norm_num) (by decide)]
      norm_num
    rw [fl_eq_of _ 53 4503599627370498 (by norm_num) he hn]
    norm_num
  have hfM : fl (9007199254740994 : ℚ) = 9007199254740994 := by
    have he : rexp (9007199254740994 : ℚ) = 53 :=
      rexp_eq_of _ 53 (by norm_num) (by norm_num) (by norm_num)
    have hfl : ⌊(9007199254740994 : ℚ) * 2 ^ ((52 : ℤ) - 53)⌋ = 4503599627370497 := by
      rw [Int.floor_eq_iff]
      norm_num
    have hn : rhe ((9007199254740994 : ℚ) * 2 ^ ((52 : ℤ) - 53)) = 4503599627370497 :=
      rhe_eq_of_lt _ _ hfl (by norm_num)
    rw [fl_eq_of _ 53 4503599627370497 (by norm_num) he hn]
    norm_num
  have hq1 : fl ((1 : ℚ) / 9007199254740996) = 9007199254740988 * 2 ^ ((-106 : ℤ)) := by
    have he : rexp ((1 : ℚ) / 9007199254740996) = -54 :=
      rexp_eq_of _ (-54) (by norm_num) (by norm_num) (by norm_num)
    have hfl : ⌊(1 : ℚ) / 9007199254740996 * 2 ^ ((52 : ℤ) - (-54))⌋ = 9007199254740988 := by
      rw [Int.floor_eq_iff]
      norm_num
    have hn : rhe ((1 : ℚ) / 9007199254740996 * 2 ^ ((52 : ℤ) - (-54))) = 9007199254740988 :=
      rhe_eq_of_lt _ _ hfl (by norm_num)
    rw [fl_eq_of _ (-54) 9007199254740988 (by norm_num) he hn]
    norm_num
  have hq2 : fl ((9007199254740994 : ℚ) / 9007199254740996) =
      9007199254740990 * 2 ^ ((-53 : ℤ)) := by
    have he : rexp ((9007199254740994 : ℚ) / 9007199254740996) = -1 :=
      rexp_eq_of _ (-1) (by norm_num) (by norm_num) (by norm_num)
    have hfl : ⌊(9007199254740994 : ℚ) / 9007199254740996 * 2 ^ ((52 : ℤ) - (-1))⌋ =
        9007199254740990 := by
      rw [Int.floor_eq_iff]
      norm_num
    have hn : rhe ((9007199254740994 : ℚ) / 9007199254740996 * 2 ^ ((52 : ℤ) - (-1))) =
        9007199254740990 :=
      rhe_eq_of_lt _ _ hfl (by norm_num)
    rw [fl_eq_of _ (-1) 9007199254740990 (by norm_num) he hn]
    norm_num
  have hhit : mBig.hit_rate = 9007199254740988 * 2 ^ ((-106 : ℤ)) := by
    rw [hh, fl_one, hfT, hq1]
  have hmiss : mBig.miss_rate = 9007199254740990 * 2 ^ ((-53 : ℤ)) := by
    rw [hm, hfM, hfT, hq2]
  have hflsum : fl ((9007199254740988 : ℚ) * 2 ^ ((-106 : ℤ)) +
      9007199254740990 * 2 ^ ((-53 : ℤ))) = 9007199254740991 * 2 ^ ((-53 : ℤ)) := by
    have he : rexp ((9007199254740988 : ℚ) * 2 ^ ((-106 : ℤ)) +
        9007199254740990 * 2 ^ ((-53 : ℤ))) = -1 :=
      rexp_eq_of _ (-1) (by norm_num) (by norm_num) (by norm_num)
    have hfl : ⌊((9007199254740988 : ℚ) * 2 ^ ((-106 : ℤ)) +
        9007199254740990 * 2 ^ ((-53 : ℤ))) * 2 ^ ((52 : ℤ) - (-1))⌋ =
        9007199254740990 := by
      rw [Int.floor_eq_iff]
      norm_num
    have hn : rhe (((9007199254740988 : ℚ) * 2 ^ ((-106 : ℤ)) +
        9007199254740990 * 2 ^ ((-53 : ℤ))) * 2 ^ ((52 : ℤ) - (-1))) =
        9007199254740991 := by
      rw [rhe_eq_of_gt _ 9007199254740990 hfl (by norm_num)]
      norm_num
    rw [fl_eq_of _ (-1) 9007199254740991 (by norm_num) he hn]
    norm_num
  refine ⟨by decide, ?_, ?_⟩
  · rw [hhit, hmiss]
    norm_num
  · rw [hhit, hmiss, hflsum]
    norm_num

/-- C9: the slowdown percentage is exactly 0 when the ideal cycle count is 0
or when the actual cycle count does not exceed it; otherwise it equals
`(actual - ideal) / ideal * 100` up to relative rounding error `2 ^ -50`. -/
theorem slowdown_percent_formula (m : Metrics) (ideal : Nat) :
    (ideal = 0 → m.slowdown_percent ideal = 0) ∧
    (m.total_cycles ≤ ideal → m.slowdown_percent ideal = 0) ∧
    (0 < ideal → ideal < m.total_cycles →
      |m.slowdown_percent ideal -
          ((m.total_cycles - ideal : Nat) : ℚ) / (ideal : ℚ) * 100|
        ≤ ((m.total_cycles - ideal : Nat) : ℚ) / (ideal : ℚ) * 100 * (1 / 2 ^ 50)) := by
  refine ⟨?_, ?_, ?_⟩
  · intro h
    simp [Metrics.slowdown_percent, Metrics.slowdown_vs_ideal, h, fl_zero]
  · intro h
    by_cases h0 : ideal = 0
    · simp [Metrics.slowdown_percent, Metrics.slowdown_vs_ideal, h0, fl_zero]
    · simp [Metrics.slowdown_percent, Metrics.slowdown_vs_ideal, h0, h, fl_zero]
  · intro h0 hlt
    have hne : ¬ ideal = 0 := by omega
    have hnle : ¬ m.total_cycles ≤ ideal := by omega
    have hsp : m.slowdown_percent ideal =
        fl (fl (fl ((m.total_cycles - ideal : Nat) : ℚ) / fl (ideal : ℚ)) * 100) := by
      simp only [Metrics.slowdown_percent, Metrics.slowdown_vs_ideal, if_neg hne, if_neg hnle]
    set D : ℚ := ((m.total_cycles - ideal : Nat) : ℚ) with hD_def
    set I : ℚ := ((ideal : Nat) : ℚ) with hI_def
    have hDpos : 0 < D := by
      rw [hD_def]
      exact_mod_cast Nat.sub_pos_of_lt hlt
    have hIpos : (0 : ℚ) < I := by
      rw [hI_def]
      exact_mod_cast h0
    obtain ⟨hfD1, hfD2⟩ := fl_bounds D hDpos
    obtain ⟨hfI1, hfI2⟩ := fl_bounds I hIpos
    have hfIpos : 0 < fl I := fl_pos I hIpos
    have hqpos : 0 < fl D / fl I := div_pos (fl_pos D hDpos) hfIpos
    obtain ⟨hs1, hs2⟩ := fl_bounds _ hqpos
    obtain ⟨hb1, hb2⟩ := div_round_bounds D I (fl D) (fl I) (fl (fl D / fl I))
      hDpos hIpos hfD1 hfD2 hfI1 hfI2 hfIpos hs1 hs2
    set s : ℚ := fl (fl D / fl I) with hs_def
    have hspos : 0 < s := by
      rw [hs_def]
      exact fl_pos _ hqpos
    have h100 : 0 < s * 100 := by positivity
    obtain ⟨hp1, hp2⟩ := fl_bounds (s * 100) h100
    set p : ℚ := fl (s * 100) with hp_def
    have hub : I * p ≤ D * 100 * (1 + 8 / 2 ^ 53) := by
      have h1 : I * p ≤ I * (s * 100 * (1 + 1 / 2 ^ 53)) :=
        mul_le_mul_of_nonneg_left hp2 hIpos.le
      have h2 := mul_le_mul_of_nonneg_right hb2
        (show (0 : ℚ) ≤ 100 * (1 + 1 / 2 ^ 53) by norm_num)
      have h3 : D * (1 + 4 / 2 ^ 53) * (100 * (1 + 1 / 2 ^ 53)) ≤
          D * 100 * (1 + 8 / 2 ^ 53) := by
        have hc : (0 : ℚ) ≤ 3 / 2 ^ 53 - 4 * (1 / 2 ^ 53) * (1 / 2 ^ 53) := by norm_num
        nlinarith [mul_nonneg hDpos.le hc]
      calc I * p ≤ I * (s * 100 * (1 + 1 / 2 ^ 53)) := h1
        _ = I * s * (100 * (1 + 1 / 2 ^ 53)) := by ring
        _ ≤ D * (1 + 4 / 2 ^ 53) * (100 * (1 + 1 / 2 ^ 53)) := h2
        _ ≤ D * 100 * (1 + 8 / 2 ^ 53) := h3
    have hlb : D * 100 * (1 - 8 / 2 ^ 53) ≤ I * p := by
      have h1 : I * (s * 100 * (1 - 1 / 2 ^ 53)) ≤ I * p :=
        mul_le_mul_of_nonneg_left hp1 hIpos.le
      have h2 := mul_le_mul_of_nonneg_right hb1
        (show (0 : ℚ) ≤ 100 * (1 - 1 / 2 ^ 53) by norm_num)
      have h3 : D * 100 * (1 - 8 / 2 ^ 53) ≤
          D * (1 - 4 / 2 ^ 53) * (100 * (1 - 1 / 2 ^ 53)) := by
        have hc : (0 : ℚ) ≤ 3 / 2 ^ 53 + 4 * (1 / 2 ^ 53) * (1 / 2 ^ 53) := by norm_num
        nlinarith [mul_nonneg hDpos.le hc]
      calc D * 100 * (1 - 8 / 2 ^ 53)
          ≤ D * (1 - 4 / 2 ^ 53) * (100 * (1 - 1 / 2 ^ 53)) := h3
        _ ≤ I * s * (100 * (1 - 1 / 2 ^ 53)) := h2
        _ = I * (s * 100 * (1 - 1 / 2 ^ 53)) := by ring
        _ ≤ I * p := h1
    rw [hsp]
    have hEI : D / I * 100 * I = D * 100 := by field_simp
    have key : (p - D / I * 100) * I = I * p - D * 100 := by
      rw [sub_mul, hEI]
      ring
    have key2 : D / I * 100 * (1 / 2 ^ 50) * I = D * 100 * (1 / 2 ^ 50) := by
      rw [show D / I * 100 * (1 / 2 ^ 50) * I = D / I * 100 * I * (1 / 2 ^ 50) from by ring,
        hEI]
    rw [abs_le]
    constructor
    · apply le_of_mul_le_mul_right _ hIpos
      rw [key, show -(D / I * 100 * (1 / 2 ^ 50)) * I =
        -(D / I * 100 * (1 / 2 ^ 50) * I) from by ring, key2]
      linarith
    · apply le_of_mul_le_mul_right _ hIpos
      rw [key, key2]
      linarith

/-- C9 witness: 117 actual cycles against an ideal of 100 yield a slowdown
percentage within 0.01 of 17. -/
theorem slowdown_percent_formula_witness :
    0 < 100 ∧ 100 < m117.total_cycles ∧
    |m117.slowdown_percent 100 - 17| ≤ 1 / 100 := by
  have h := (slowdown_percent_formula m117 100).2.2 (by decide) (by decide)
  have he : ((m117.total_cycles - 100 : Nat) : ℚ) = 17 := by
    norm_num [m117, Metrics.new]
  rw [he] at h
  norm_num at h
  refine ⟨by decide, by decide, ?_⟩
  exact le_trans h (by norm_num)

end MLAccel
